import Mathlib

/-!
Verification of the `tnf` scaffolding CLI's generate subsystem
(`src/generate.ts` and `src/generate/generate.ts`).

The code manipulates POSIX path strings through Node's `path` module
(`dirname`, `resolve`, `relative`, `join`), rewrites import specifiers in
template text with a global regex replace, and performs confirmation-gated
file writes.  We embed all of this shallowly: strings are `List Char`,
Node's POSIX path algorithms are translated at the segment level (split on
`/`, drop empty segments, fold `.`/`..` resolution), the regex scans are
left-to-right scanners over character lists, and the filesystem plus the
interactive prompt, the random color, the I/O-failure behaviour and the
`sync` collaborator are explicit oracles/state.
-/

namespace Tnf

/-! ### POSIX path model (Node `path.posix`)

Paths are character lists.  A path is split into its non-empty `/`-separated
segments; `normSegs` is the segment-level form of Node's `normalizeString`
(drop `.`, resolve `..` against the stack, with `allowAboveRoot` keeping
excess `..` for relative paths and dropping it for absolute ones). -/

/-- Split a character list into its non-empty `/`-separated segments.
`acc` holds the current (reversed) segment being read. -/
def splitSegsAux : List Char → List Char → List (List Char)
  | [], acc => if acc = [] then [] else [acc.reverse]
  | c :: rest, acc =>
      if c = '/' then
        if acc = [] then splitSegsAux rest []
        else acc.reverse :: splitSegsAux rest []
      else splitSegsAux rest (c :: acc)

/-- Non-empty `/`-separated segments of a path. -/
def splitSegs (l : List Char) : List (List Char) := splitSegsAux l []

/-- Join segments with `/` (Node's `join('/')` on an array of parts). -/
def joinSegs : List (List Char) → List Char
  | [] => []
  | [s] => s
  | s :: rest => s ++ '/' :: joinSegs rest

/-- One step of Node's `normalizeString`: push a segment onto the resolved
stack, skipping `.`, and resolving `..` by popping (an absolute path drops
excess `..`; a relative one keeps it when `allowAbove` is true). -/
def normStep (allowAbove : Bool) (acc : List (List Char)) (seg : List Char) :
    List (List Char) :=
  if seg = ['.'] then acc
  else if seg = ['.', '.'] then
    if acc ≠ [] ∧ acc.getLast? ≠ some ['.', '.'] then acc.dropLast
    else if allowAbove then acc ++ [seg]
    else acc
  else acc ++ [seg]

/-- Node's `normalizeString` at segment level. -/
def normSegs (allowAbove : Bool) (segs : List (List Char)) : List (List Char) :=
  segs.foldl (normStep allowAbove) []

/-- Whether a path string is absolute (starts with `/`). -/
def isAbs (l : List Char) : Bool := l.head? = some '/'

/-- One right-to-left step of Node `path.posix.resolve`'s argument
gathering: skip once a path is absolute, skip empty arguments, otherwise
prepend `part + '/'`. -/
def resolveStep (part : List Char) (acc : List Char × Bool) :
    List Char × Bool :=
  if acc.2 then acc
  else if part = [] then acc
  else (part ++ '/' :: acc.1, isAbs part)

/-- Node `path.posix.resolve`: concatenate the argument list right-to-left
until an absolute path is met, prepending the process working directory
`cwd` if none is; returns the raw concatenation and the absoluteness flag. -/
def resolveJoined (cwd : List Char) (args : List (List Char)) :
    List Char × Bool :=
  let folded := args.foldr resolveStep (([] : List Char), false)
  if folded.2 then folded
  else if cwd = [] then folded
  else (cwd ++ '/' :: folded.1, isAbs cwd)

/-- Node `path.posix.resolve` (with the process working directory made an
explicit parameter). -/
def posixResolve (cwd : List Char) (args : List (List Char)) : List Char :=
  let j := resolveJoined cwd args
  let segs := normSegs (!j.2) (splitSegs j.1)
  if j.2 then '/' :: joinSegs segs
  else if segs = [] then ['.'] else joinSegs segs

/-- Length of the longest common segment run at the head of two lists. -/
def commonLen : List (List Char) → List (List Char) → Nat
  | a :: as, b :: bs => if a = b then commonLen as bs + 1 else 0
  | _, _ => 0

/-- Node `path.posix.relative`: resolve both endpoints, then climb with `..`
past the shared leading segments and descend into the target. -/
def posixRelative (cwd from' to' : List Char) : List Char :=
  let f := posixResolve cwd [from']
  let t := posixResolve cwd [to']
  if f = t then []
  else
    let a := splitSegs f
    let b := splitSegs t
    let k := commonLen a b
    joinSegs (List.replicate (a.length - k) ['.', '.'] ++ b.drop k)

/-- Node `path.posix.dirname`. -/
def posixDirname (p : List Char) : List Char :=
  match p with
  | [] => ['.']
  | c0 :: body =>
    let hasRoot := c0 = '/'
    let r1 := body.reverse.dropWhile (· = '/')
    let r2 := r1.dropWhile (· ≠ '/')
    if r2 = [] then (if hasRoot then ['/'] else ['.'])
    else if hasRoot ∧ r2.length = 1 then ['/', '/']
    else (c0 :: body).take r2.length

/-- Node `path.posix.normalize`. -/
def posixNormalize (p : List Char) : List Char :=
  if p = [] then ['.']
  else
    let abs := isAbs p
    let trail := p.getLast? = some '/'
    let segs := normSegs (!abs) (splitSegs p)
    if segs = [] then
      if abs then ['/'] else if trail then ['.', '/'] else ['.']
    else
      let body := joinSegs segs ++ (if trail then ['/'] else [])
      if abs then '/' :: body else body

/-- Node `path.posix.join` restricted to two arguments (the only arity the
code uses): drop empty arguments, join with `/`, normalize. -/
def posixJoin (a b : List Char) : List Char :=
  let parts := [a, b].filter (· ≠ [])
  if parts = [] then ['.']
  else posixNormalize (joinSegs parts)

/-! ### Import-path rewriting (`processImportPaths`)

`content.replace(/from ['"]([^'"]+)['"]/g, cb)` is a left-to-right scan:
find the leftmost occurrence of `from ` followed by a quote, a non-empty
quote-free span and a closing quote (either quote kind on either side),
replace it by the callback's result, and continue scanning after the
matched portion of the original string. -/

/-- The single-quote character (written by code point to keep the source
free of tricky literals). -/
def squote : Char := Char.ofNat 39

/-- Whether a character is one of the two quote characters of the regex
character class `['"]`. -/
def quoteCh (c : Char) : Bool := c = squote ∨ c = '"'

/-- Scan to the first quote character, returning the quote-free span before
it, that quote, and the remainder (the `[^'"]+['"]` portion of the regex;
the greedy span is forced to run exactly to the next quote). -/
def findSpanQ : List Char → Option (List Char × Char × List Char)
  | [] => none
  | c :: rest =>
      if quoteCh c then some ([], c, rest)
      else (findSpanQ rest).map (fun s => (c :: s.1, s.2.1, s.2.2))

/-- Try to match `from ['"]([^'"]+)['"]` at the head of the list, returning
the opening quote, the captured specifier, the closing quote and the
remainder after the match. -/
def tryFromMatch (l : List Char) :
    Option (Char × List Char × Char × List Char) :=
  match l with
  | c1 :: c2 :: c3 :: c4 :: c5 :: q1 :: rest =>
      if [c1, c2, c3, c4, c5] = "from ".data ∧ quoteCh q1 then
        match findSpanQ rest with
        | some (span, q2, rest') =>
            if span = [] then none else some (q1, span, q2, rest')
        | none => none
      else none
  | _ => none

/-- The `normalizedPath` computed by `processImportPaths` for a relative
specifier: `path.relative` from the destination file's directory to the
specifier resolved against the source file's directory, prefixed with `./`
when the relative path does not already start with a dot. -/
def normalizedPathOf (cwd sourcePath destPath importPath : List Char) :
    List Char :=
  let relativePath := posixRelative cwd (posixDirname destPath)
    (posixResolve cwd [posixDirname sourcePath, importPath])
  if relativePath.head? = some '.' then relativePath
  else '.' :: '/' :: relativePath

/-- The replacer callback of `processImportPaths`: a specifier starting with
`.` is rewritten to `from '<normalizedPath>'`; any other match is returned
unchanged. -/
def replaceImport (cwd sourcePath destPath : List Char) (q1 : Char)
    (importPath : List Char) (q2 : Char) : List Char :=
  if importPath.head? = some '.' then
    "from ".data ++ squote ::
      (normalizedPathOf cwd sourcePath destPath importPath ++ [squote])
  else "from ".data ++ q1 :: (importPath ++ [q2])

/-- Fuel-indexed scanner realizing the global regex replace of
`processImportPaths`. -/
def scanImports (cwd sourcePath destPath : List Char) :
    Nat → List Char → List Char
  | 0, l => l
  | _ + 1, [] => []
  | fuel + 1, c :: rest =>
      match tryFromMatch (c :: rest) with
      | some (q1, span, q2, rest') =>
          replaceImport cwd sourcePath destPath q1 span q2 ++
            scanImports cwd sourcePath destPath fuel rest'
      | none => c :: scanImports cwd sourcePath destPath fuel rest

/-- `processImportPaths(content, sourcePath, destPath)` from
`src/generate.ts` (the process working directory, which Node's `path`
functions consult for relative inputs, is an explicit first parameter). -/
def processImportPaths (cwd content sourcePath destPath : List Char) :
    List Char :=
  scanImports cwd sourcePath destPath content.length content

/-! ### Configuration model and `updateConfigFile` serialization -/

/-- Modelled from the spec: the `Config` type comes from `./config`, which
is not among this subsystem's sources; the spec describes the configuration
as "a mapping of framework settings (entry points, feature flags such as a
tailwind toggle)".  We model the two settings this subsystem reads or
writes — the entry's `client` path and the `tailwindcss` flag — each
possibly absent (absent fields are omitted by `JSON.stringify`). -/
structure EntryConfig where
  client : Option (List Char)
deriving DecidableEq

/-- Modelled from the spec: the configuration object (see `EntryConfig`). -/
structure Config where
  entry : Option EntryConfig
  tailwindcss : Option Bool
deriving DecidableEq

/-- Left brace character, by code point. -/
def lbrace : Char := Char.ofNat 123

/-- Right brace character, by code point. -/
def rbrace : Char := Char.ofNat 125

/-- Lower-case hexadecimal digit. -/
def hexDigit (n : Nat) : Char :=
  if n < 10 then Char.ofNat (48 + n) else Char.ofNat (87 + n)

/-- JSON string escaping as performed by `JSON.stringify`: quote and
backslash are backslash-escaped, the common control characters get their
short escapes, other control characters a `\u00XX` escape. -/
def jsonEscapeChar (c : Char) : List Char :=
  if c = '"' then ['\\', '"']
  else if c = '\\' then ['\\', '\\']
  else if c = '\n' then ['\\', 'n']
  else if c = '\r' then ['\\', 'r']
  else if c = '\t' then ['\\', 't']
  else if c = Char.ofNat 8 then ['\\', 'b']
  else if c = Char.ofNat 12 then ['\\', 'f']
  else if c.toNat < 32 then
    ['\\', 'u', '0', '0', hexDigit (c.toNat / 16), hexDigit (c.toNat % 16)]
  else [c]

/-- JSON escape of a whole string. -/
def jsonEscape (s : List Char) : List Char := s.flatMap jsonEscapeChar

/-- Rendering of the `entry` field's value under `JSON.stringify(·, null, 2)`
at nesting depth one. -/
def entryJson (e : EntryConfig) : List Char :=
  match e.client with
  | none => [lbrace, rbrace]
  | some s =>
      lbrace :: "\n    \"client\": \"".data ++ jsonEscape s ++
        ('"' :: '\n' :: ' ' :: ' ' :: [rbrace])

/-- The present fields of the configuration, in declaration order, with
their rendered values (`JSON.stringify` omits absent fields). -/
def configPairs (c : Config) : List (List Char × List Char) :=
  (match c.entry with
   | none => []
   | some e => [("entry".data, entryJson e)]) ++
  (match c.tailwindcss with
   | none => []
   | some b => [("tailwindcss".data, if b then "true".data else "false".data)])

/-- Join character lists with a separator. -/
def joinList (sep : List Char) : List (List Char) → List Char
  | [] => []
  | [x] => x
  | x :: rest => x ++ sep ++ joinList sep rest

/-- One `  "key": value` line of the pretty-printed JSON. -/
def renderPair (p : List Char × List Char) : List Char :=
  ' ' :: ' ' :: '"' :: p.1 ++ '"' :: ':' :: ' ' :: p.2

/-- `JSON.stringify(config, null, 2)` on the modelled configuration. -/
def jsonStringifyConfig (c : Config) : List Char :=
  match configPairs c with
  | [] => [lbrace, rbrace]
  | ps => lbrace :: '\n' :: joinList (',' :: ['\n']) (ps.map renderPair) ++
      '\n' :: [rbrace]

/-- One `  key: value` line with the key left bare. -/
def renderPairBare (p : List Char × List Char) : List Char :=
  ' ' :: ' ' :: p.1 ++ ':' :: ' ' :: p.2

/-- Rendering of the `entry` value with its inner key left bare. -/
def entryJsonBare (e : EntryConfig) : List Char :=
  match e.client with
  | none => [lbrace, rbrace]
  | some s =>
      lbrace :: "\n    client: \"".data ++ jsonEscape s ++
        ('"' :: '\n' :: ' ' :: ' ' :: [rbrace])

/-- Modelled from the spec: the serialization the spec's words describe —
the `JSON.stringify` output with object keys unquoted directly (rather than
post-processed by a regex). -/
def jsonStringifyUnquoted (c : Config) : List Char :=
  match (match c.entry with
         | none => []
         | some e => [("entry".data, entryJsonBare e)]) ++
        (match c.tailwindcss with
         | none => []
         | some b => [("tailwindcss".data,
             if b then "true".data else "false".data)]) with
  | [] => [lbrace, rbrace]
  | ps => lbrace :: '\n' :: joinList (',' :: ['\n']) (ps.map renderPairBare) ++
      '\n' :: [rbrace]

/-- Scan to the first `"`, returning the quote-free span before it and the
remainder after it. -/
def findSpanD : List Char → Option (List Char × List Char)
  | [] => none
  | c :: rest =>
      if c = '"' then some ([], rest)
      else (findSpanD rest).map (fun s => (c :: s.1, s.2))

/-- Try to match `([^"]+)":` (the part of the key regex after its opening
quote) at the head of the list. -/
def tryKeyMatch (l : List Char) : Option (List Char × List Char) :=
  match findSpanD l with
  | some (span, r0 :: rest') =>
      if r0 = ':' ∧ span ≠ [] then some (span, rest') else none
  | _ => none

/-- Fuel-indexed scanner realizing `.replace(/"([^"]+)":/g, '$1:')` from
`updateConfigFile`. -/
def unquoteScan : Nat → List Char → List Char
  | 0, l => l
  | _ + 1, [] => []
  | fuel + 1, c :: rest =>
      if c = '"' then
        match tryKeyMatch rest with
        | some (span, rest') => span ++ ':' :: unquoteScan fuel rest'
        | none => c :: unquoteScan fuel rest
      else c :: unquoteScan fuel rest

/-- The global key-unquoting replace of `updateConfigFile`. -/
def unquoteKeys (l : List Char) : List Char := unquoteScan l.length l

/-- The text `updateConfigFile` writes: `export default ` followed by the
`JSON.stringify(config, null, 2)` output with the key-unquoting regex
applied. -/
def configContent (c : Config) : List Char :=
  "export default ".data ++ unquoteKeys (jsonStringifyConfig c)

/-- Modelled from the spec: the content the spec's words describe, with
keys unquoted in the serializer itself. -/
def configContentSpec (c : Config) : List Char :=
  "export default ".data ++ jsonStringifyUnquoted c

/-! ### Filesystem, prompt-oracle and I/O model

A filesystem state is an association list from file paths to contents plus
the set of directories known to exist.  The interactive `confirm` prompt is
an oracle keyed by the prompt message; `ioFail` says on which paths
`fs.writeFile` throws (the code catches that and turns it into a failure
result); the random color and the `sync` collaborator are likewise
oracles. -/

/-- Filesystem state. -/
structure FState where
  files : List (List Char × List Char)
  dirs : List (List Char)
deriving DecidableEq

/-- First-match lookup in the file association list. -/
def lookupFile : List (List Char × List Char) → List Char →
    Option (List Char)
  | [], _ => none
  | kv :: rest, p => if kv.1 = p then some kv.2 else lookupFile rest p

/-- Content of the file at a path, if present. -/
def fileGet (st : FState) (p : List Char) : Option (List Char) :=
  lookupFile st.files p

/-- Write a file, replacing any previous content at the path (newer entries
shadow older ones under `lookupFile`). -/
def fileSet (st : FState) (p content : List Char) : FState :=
  { st with files := (p, content) :: st.files }

/-- `fs.existsSync`: true for an existing file or directory. -/
def existsSync (st : FState) (p : List Char) : Bool :=
  (fileGet st p).isSome || st.dirs.contains p

/-- `fs.ensureDirSync`. -/
def ensureDir (st : FState) (p : List Char) : FState :=
  { st with dirs := p :: st.dirs }

/-- `FileOperationResult` from `src/generate.ts`. -/
structure FileOperationResult where
  path : List Char
  success : Bool
  message : List Char
deriving DecidableEq

/-- `writeFileWithConfirmation` from `src/generate.ts`: if the target
exists, ask the caller-supplied question and skip on "no"; otherwise (or on
"yes") attempt the write, catching an I/O error into a failure result. -/
def writeFileWithConfirmation (confirm : List Char → Bool)
    (ioFail : List Char → Bool) (st : FState)
    (filePath content confirmMessage : List Char) :
    FileOperationResult × FState :=
  if existsSync st filePath ∧ ¬ confirm confirmMessage then
    (⟨filePath, false, "Skipped writing to ".data ++ filePath⟩, st)
  else if ioFail filePath then
    (⟨filePath, false, "Failed to write file".data⟩, st)
  else
    (⟨filePath, true, "Generated file at: ".data ++ filePath⟩,
      fileSet st filePath content)

/-- Modelled from the spec: `CONFIG_FILE` comes from `./constants`, which is
not among this subsystem's sources; the spec only requires "a fixed-named
configuration source file", so the exact name is immaterial. -/
def CONFIG_FILE : List Char := ".tnfrc".data

/-- The path `updateConfigFile` writes to: `path.join(cwd, CONFIG_FILE + '.ts')`. -/
def configPathOf (cwd : List Char) : List Char :=
  posixJoin cwd (CONFIG_FILE ++ ".ts".data)

/-- `updateConfigFile` from `src/generate.ts`: serialize the configuration
and overwrite the configuration file unconditionally, catching I/O errors
into a failure result. -/
def updateConfigFile (ioFail : List Char → Bool) (st : FState)
    (cwd : List Char) (config : Config) : FileOperationResult × FState :=
  if ioFail (configPathOf cwd) then
    (⟨configPathOf cwd, false, "Failed to update config file".data⟩, st)
  else
    (⟨configPathOf cwd, true,
        "Updated config file at: ".data ++ CONFIG_FILE ++ ".ts".data⟩,
      fileSet st (configPathOf cwd) (configContent config))

/-! ### The page generator -/

/-- `path.join(cwd, 'src/pages')`. -/
def pagesDirOf (cwd : List Char) : List Char := posixJoin cwd "src/pages".data

/-- The component file path of a page. -/
def pagePathOf (cwd name : List Char) : List Char :=
  posixJoin (pagesDirOf cwd) (name ++ ".tsx".data)

/-- The style-module file path of a page. -/
def stylePathOf (cwd name : List Char) : List Char :=
  posixJoin (pagesDirOf cwd) (name ++ ".module.less".data)

/-- `pageName.charAt(0).toUpperCase() + pageName.slice(1)`. -/
def componentNameOf : List Char → List Char
  | [] => []
  | c :: cs => c.toUpper :: cs

/-- The component template of `generatePage` with the name spliced in. -/
def pageContentOf (pageName : List Char) : List Char :=
  "import React from 'react';\nimport \x7b createFileRoute \x7d from '@umijs/tnf/router';\nimport styles from './".data ++
  pageName ++ ".module.less';\n\nexport const Route = createFileRoute('/".data ++
  pageName ++ "')(\x7b\n  component: ".data ++ componentNameOf pageName ++
  ",\n\x7d);\n\nfunction ".data ++ componentNameOf pageName ++
  "() \x7b\n  return (\n    <div className=\x7bstyles.container\x7d>\n      <h3>Welcome to ".data ++
  componentNameOf pageName ++
  " Page!</h3>\n    </div>\n  );\n\x7d\n".data

/-- The style template of `generatePage`; `color` is the oracle for
`randomColor().hexString()`. -/
def styleContentOf (color : List Char) : List Char :=
  ".container \x7b\n  color: ".data ++ color ++ ";\n\x7d\n".data

/-- `generatePage` from `src/generate.ts`: assertion failures become
`Except.error` (carrying the message and the filesystem as it was when the
error was raised — nothing has been written); on success both files are
written unconditionally. -/
def generatePage (color : List Char) (st : FState) (cwd name : List Char) :
    Except (List Char × FState) FState :=
  if name = [] then .error ("Name is required".data, st)
  else if existsSync st (pagePathOf cwd name) ||
      existsSync st (stylePathOf cwd name) then
    .error ("Page ".data ++ name ++ " already exists.".data, st)
  else
    .ok (fileSet
      (fileSet (ensureDir st (pagesDirOf cwd)) (pagePathOf cwd name)
        (pageContentOf name))
      (stylePathOf cwd name) (styleContentOf color))

/-! ### The tailwind generator -/

/-- The fixed `tailwind.config.js` template. -/
def tailwindConfigContent : List Char :=
  "/** @type \x7bimport('tailwindcss').Config\x7d */\nexport default \x7b\n  content: [\n    \"./src/pages/**/*.\x7bjs,ts,jsx,tsx\x7d\",\n    \"./src/components/**/*.\x7bjs,ts,jsx,tsx\x7d\"\n  ],\n  theme: \x7b\n    extend: \x7b\x7d,\n  \x7d,\n  plugins: [],\n\x7d".data

/-- The fixed base stylesheet template. -/
def tailwindCSSContent : List Char :=
  "@tailwind base;\n@tailwind components;\n@tailwind utilities;".data

/-- `path.join(cwd, 'tailwind.config.js')`. -/
def tailwindConfigPathOf (cwd : List Char) : List Char :=
  posixJoin cwd "tailwind.config.js".data

/-- `path.join(cwd, 'src/tailwind.css')`. -/
def tailwindCSSPathOf (cwd : List Char) : List Char :=
  posixJoin cwd "src/tailwind.css".data

/-- The overwrite prompt for the tailwind configuration file. -/
def twConfigMsg : List Char :=
  "Tailwind config file already exists, do you want to overwrite?".data

/-- The overwrite prompt for the base stylesheet. -/
def twCSSMsg : List Char :=
  "Tailwind CSS file already exists, do you want to overwrite?".data

/-- `generateTailwindcss` from `src/generate.ts`.  The two
confirmation-gated writes are issued under `Promise.all`; they touch two
distinct paths, so they are modelled sequentially.  Afterwards the
`tailwindcss` flag is set and the configuration persisted,
unconditionally. -/
def generateTailwindcss (confirm ioFail : List Char → Bool) (st : FState)
    (cwd : List Char) (config : Config) :
    List FileOperationResult × FState :=
  let st0 := ensureDir st (posixJoin cwd "src".data)
  let r1 := writeFileWithConfirmation confirm ioFail st0
    (tailwindConfigPathOf cwd) tailwindConfigContent twConfigMsg
  let r2 := writeFileWithConfirmation confirm ioFail r1.2
    (tailwindCSSPathOf cwd) tailwindCSSContent twCSSMsg
  let r3 := updateConfigFile ioFail r2.2 cwd
    { config with tailwindcss := some true }
  ([r1.1, r2.1, r3.1], r3.2)

/-! ### The entry generator -/

/-- Modelled from the spec: `FRAMEWORK_NAME` comes from `./constants`, which
is not among this subsystem's sources; the code's own error message names
the `.tnf` directory, so the name is `tnf`. -/
def FRAMEWORK_NAME : List Char := "tnf".data

/-- `path.join(cwd, 'src/.' + FRAMEWORK_NAME)`. -/
def tnfPathOf (cwd : List Char) : List Char :=
  posixJoin cwd ("src/.".data ++ FRAMEWORK_NAME)

/-- `path.join(tnfPath, 'client.tsx')`. -/
def clientSrcPathOf (cwd : List Char) : List Char :=
  posixJoin (tnfPathOf cwd) "client.tsx".data

/-- `path.join(cwd, 'src/client.tsx')`. -/
def clientDestPathOf (cwd : List Char) : List Char :=
  posixJoin cwd "src/client.tsx".data

/-- `config.entry = { ...config.entry, client: 'src/client.tsx' }`. -/
def setEntryClient (c : Config) : Config :=
  { c with entry := some ⟨some "src/client.tsx".data⟩ }

/-- The overwrite prompt for the entry file. -/
def entryMsg : List Char :=
  "client.tsx already exists. Do you want to overwrite it?".data

/-- `generateEntry` from `src/generate.ts`.  `syncF` is the external `sync`
collaborator (it materializes the framework temp directory); the returned
`Nat` counts how many times it was invoked.  A thrown error is
`Except.error`, carrying the filesystem as it was at the throw — the
generator itself has written nothing at that point. -/
def generateEntry (pcwd : List Char) (confirm ioFail : List Char → Bool)
    (syncF : FState → FState) (st : FState) (cwd : List Char)
    (config : Config) : Nat × Except (List Char × FState) FState :=
  let s := if existsSync st (tnfPathOf cwd) then (0, st) else (1, syncF st)
  if ¬ existsSync s.2 (clientSrcPathOf cwd) then
    (s.1, .error ("client.tsx template not found in .tnf directory".data,
      s.2))
  else
    let content := (fileGet s.2 (clientSrcPathOf cwd)).getD []
    let processedContent :=
      processImportPaths pcwd content (clientSrcPathOf cwd)
        (clientDestPathOf cwd)
    let w := writeFileWithConfirmation confirm ioFail s.2
      (clientDestPathOf cwd) processedContent entryMsg
    if w.1.success then
      (s.1, .ok (updateConfigFile ioFail w.2 cwd (setEntryClient config)).2)
    else (s.1, .ok w.2)

/-! ### The command dispatcher -/

/-- `generateCommands` from `src/generate.ts` — the option list offered by
the interactive selection prompt. -/
def generateCommands : List (List Char) := ["entry".data, "tailwindcss".data]

/-- Whether the character sequence `pat` occurs contiguously inside a
list. -/
def occursIn (pat : List Char) : List Char → Bool
  | [] => pat.isEmpty
  | c :: rest => decide ((c :: rest).take pat.length = pat) ||
      occursIn pat rest

/-- The resolved command type: the given one, or — when it is absent or
empty (falsy) — the interactive single-choice selection over
`generateCommands` (`choose` is the prompt oracle, handed the offered
option list). -/
def selectedTypeOf (t : Option (List Char))
    (choose : List (List Char) → List Char) : List Char :=
  match t with
  | none => choose generateCommands
  | some s => if s = [] then choose generateCommands else s

/-- The dispatcher's config normalization: the entry's `client` field is
forced to `src/client.tsx` (creating `entry` when absent). -/
def normalizeConfig (c : Config) : Config :=
  { c with entry := some ⟨some "src/client.tsx".data⟩ }

/-- `generate` from `src/generate.ts`: resolve the type, fail on an unknown
command, and invoke the matching handler with the freshly loaded
(`rawConfig`) and normalized configuration. -/
def generate (choose : List (List Char) → List Char)
    (confirm ioFail : List Char → Bool) (color pcwd : List Char)
    (syncF : FState → FState) (t : Option (List Char))
    (name cwd : List Char) (rawConfig : Config) (st : FState) :
    Except (List Char × FState) FState :=
  let selectedType := selectedTypeOf t choose
  if selectedType = "page".data then generatePage color st cwd name
  else if selectedType = "tailwindcss".data then
    .ok (generateTailwindcss confirm ioFail st cwd
      (normalizeConfig rawConfig)).2
  else if selectedType = "entry".data then
    (generateEntry pcwd confirm ioFail syncF st cwd
      (normalizeConfig rawConfig)).2
  else .error ("Unknown command: ".data ++ selectedType, st)

end Tnf

section SanityChecks
open Tnf

example : posixResolve "/w".data ["/a/b".data, "./c".data] = "/a/b/c".data := by
  decide
example : posixResolve "/w".data ["x".data, "../c".data] = "/w/c".data := by
  decide
example : posixRelative "/w".data "/a/b".data "/a/c/d".data = "../c/d".data := by
  decide
example : posixDirname "/a/b".data = "/a".data := by decide
example : posixDirname "a".data = ".".data := by decide
example : posixDirname "/a//b".data = "/a/".data := by decide
example : posixJoin "/w".data "src/pages".data = "/w/src/pages".data := by decide
example : posixJoin "/w/".data "src//p/../x".data = "/w/src/x".data := by decide
example : posixRelative "/w".data "/a/b".data "/a/b".data = "".data := by decide

example :
    processImportPaths "/w".data
      "import { sync } from './sync';\nimport x from 'react';".data
      "/w/src/.tnf/client.tsx".data "/w/src/client.tsx".data =
    "import { sync } from '.tnf/sync';\nimport x from 'react';".data := by
  decide

example :
    processImportPaths "/w".data
      "import \"./styles.css\";\nconst a = import('./x');".data
      "/w/src/.tnf/client.tsx".data "/w/src/client.tsx".data =
    "import \"./styles.css\";\nconst a = import('./x');".data := by
  decide

example :
    processImportPaths "/w".data "import a from \"../cfg\";".data
      "/w/src/.tnf/client.tsx".data "/w/src/client.tsx".data =
    "import a from './cfg';".data := by
  decide

example :
    configContent ⟨some ⟨some "src/client.tsx".data⟩, some true⟩ =
    ("export default \x7b\n  entry: \x7b\n    client: \"src/client.tsx\"" ++
      "\n  \x7d,\n  tailwindcss: true\n\x7d").data := by
  decide

example :
    configContent ⟨some ⟨some "src/client.tsx".data⟩, some true⟩ =
    configContentSpec ⟨some ⟨some "src/client.tsx".data⟩, some true⟩ := by
  decide

example : configContent ⟨none, none⟩ = "export default \x7b\x7d".data := by
  decide

example :
    configContent ⟨some ⟨some ('x' :: '"' :: ':' :: ['y'])⟩, none⟩ ≠
    configContentSpec ⟨some ⟨some ('x' :: '"' :: ':' :: ['y'])⟩, none⟩ := by
  decide

end SanityChecks

namespace Tnf

/-! ### Basic file-map lemmas -/

theorem fileGet_fileSet (st : FState) (p c q : List Char) :
    fileGet (fileSet st p c) q = if q = p then some c else fileGet st q := by
  by_cases h : q = p
  · subst h; simp [fileGet, fileSet, lookupFile]
  · have hd : fileGet (fileSet st p c) q =
        if p = q then some c else fileGet st q := rfl
    rw [hd, if_neg (fun hpq => h hpq.symm), if_neg h]

theorem fileGet_ensureDir (st : FState) (d q : List Char) :
    fileGet (ensureDir st d) q = fileGet st q := rfl

/-! ### Claim C3: the confirmation-gated file writer -/

/-- C3: `writeFileWithConfirmation` — when the target exists and the
caller-supplied question is answered "no", it returns a skip result and
leaves the filesystem (hence the file's prior content) unchanged; on "yes",
or when no file existed, it writes the content, overwriting any prior
content; an I/O error is caught and surfaced as a failure result (the
function is total — no exception escapes). -/
theorem writeFileWithConfirmation_spec (confirm ioFail : List Char → Bool)
    (st : FState) (p content msg : List Char) :
    (existsSync st p = true → confirm msg = false →
      writeFileWithConfirmation confirm ioFail st p content msg =
        (⟨p, false, "Skipped writing to ".data ++ p⟩, st)) ∧
    ((existsSync st p = false ∨ confirm msg = true) → ioFail p = false →
      writeFileWithConfirmation confirm ioFail st p content msg =
        (⟨p, true, "Generated file at: ".data ++ p⟩, fileSet st p content) ∧
      fileGet (fileSet st p content) p = some content) ∧
    ((existsSync st p = false ∨ confirm msg = true) → ioFail p = true →
      writeFileWithConfirmation confirm ioFail st p content msg =
        (⟨p, false, "Failed to write file".data⟩, st)) := by
  have hget : fileGet (fileSet st p content) p = some content := by
    rw [fileGet_fileSet, if_pos rfl]
  refine ⟨fun hex hc => ?_, fun h hio => ?_, fun h hio => ?_⟩
  · unfold writeFileWithConfirmation
    rw [if_pos ⟨hex, by simp [hc]⟩]
  · have hcond : ¬ (existsSync st p = true ∧ ¬ confirm msg = true) := by
      rcases h with h | h
      · exact fun hx => by rw [h] at hx; exact absurd hx.1 (by simp)
      · exact fun hx => hx.2 h
    refine ⟨?_, hget⟩
    unfold writeFileWithConfirmation
    rw [if_neg hcond, if_neg (by simp [hio])]
  · have hcond : ¬ (existsSync st p = true ∧ ¬ confirm msg = true) := by
      rcases h with h | h
      · exact fun hx => by rw [h] at hx; exact absurd hx.1 (by simp)
      · exact fun hx => hx.2 h
    unfold writeFileWithConfirmation
    rw [if_neg hcond, if_pos hio]

/-- Witness for C3 at concrete inputs: an existing file plus a "no" answer
yields the skip result and an unchanged state. -/
theorem writeFileWithConfirmation_spec_witness :
    writeFileWithConfirmation (fun _ => false) (fun _ => false)
      ⟨[("a".data, "old".data)], []⟩ "a".data "new".data "m?".data =
      (⟨"a".data, false, "Skipped writing to a".data⟩,
        ⟨[("a".data, "old".data)], []⟩) := by
  have h := (writeFileWithConfirmation_spec (fun _ => false) (fun _ => false)
      ⟨[("a".data, "old".data)], []⟩ "a".data "new".data "m?".data).1
      (by decide) (by decide)
  exact h.trans (by decide)

/-! ### Claim C2: the page generator -/

/-- C2: `generatePage` — for a non-empty name, when neither target path
exists the generator succeeds with a state holding exactly the two new
files (the component file and the style module) at the paths the code
computes, every other path untouched; when either target already exists it
raises the assertion error and writes nothing. -/
theorem generatePage_spec (color : List Char) (st : FState)
    (cwd name : List Char) (hname : name ≠ []) :
    (existsSync st (pagePathOf cwd name) = false ∧
        existsSync st (stylePathOf cwd name) = false →
      ∃ st', generatePage color st cwd name = .ok st' ∧
        ∀ q, fileGet st' q =
          if q = stylePathOf cwd name then some (styleContentOf color)
          else if q = pagePathOf cwd name then some (pageContentOf name)
          else fileGet st q) ∧
    (existsSync st (pagePathOf cwd name) = true ∨
        existsSync st (stylePathOf cwd name) = true →
      generatePage color st cwd name =
        .error ("Page ".data ++ name ++ " already exists.".data, st)) := by
  constructor
  · rintro ⟨h1, h2⟩
    refine ⟨fileSet (fileSet (ensureDir st (pagesDirOf cwd))
        (pagePathOf cwd name) (pageContentOf name))
      (stylePathOf cwd name) (styleContentOf color), ?_, ?_⟩
    · unfold generatePage
      rw [if_neg hname, if_neg (by simp [h1, h2])]
    · intro q
      rw [fileGet_fileSet]
      by_cases hq1 : q = stylePathOf cwd name
      · rw [if_pos hq1, if_pos hq1]
      · rw [if_neg hq1, if_neg hq1, fileGet_fileSet, fileGet_ensureDir]
  · intro h
    unfold generatePage
    rw [if_neg hname, if_pos (by rcases h with h | h <;> simp [h])]

set_option maxRecDepth 4000 in
/-- Witness for C2: generating page `about` in an empty project creates the
two expected files. -/
theorem generatePage_spec_witness :
    ∃ st', generatePage "ff0000".data ⟨[], []⟩ "/w".data "about".data =
        .ok st' ∧
      fileGet st' "/w/src/pages/about.tsx".data =
        some (pageContentOf "about".data) ∧
      fileGet st' "/w/src/pages/about.module.less".data =
        some (styleContentOf "ff0000".data) := by
  obtain ⟨st', heq, hchar⟩ :=
    (generatePage_spec "ff0000".data ⟨[], []⟩ "/w".data "about".data
      (by decide)).1 (by decide)
  refine ⟨st', heq, ?_, ?_⟩
  · rw [hchar "/w/src/pages/about.tsx".data]; decide
  · rw [hchar "/w/src/pages/about.module.less".data]; decide

/-! ### Lemmas about the key-unquoting scanner -/

theorem findSpanD_length : ∀ l span rest, findSpanD l = some (span, rest) →
    l.length = span.length + 1 + rest.length := by
  intro l
  induction l with
  | nil => intro span rest h; simp [findSpanD] at h
  | cons c cs ih =>
      intro span rest h
      simp only [findSpanD] at h
      by_cases hc : c = '"'
      · rw [if_pos hc] at h
        obtain ⟨h1, h2⟩ := Prod.mk.injEq .. ▸ Option.some.inj h
        subst h1; subst h2
        simp only [List.length_cons, List.length_nil]
        omega
      · rw [if_neg hc] at h
        cases hf : findSpanD cs with
        | none => rw [hf] at h; simp at h
        | some pr =>
            obtain ⟨s1, s2⟩ := pr
            rw [hf] at h
            simp only [Option.map_some'] at h
            obtain ⟨h1, h2⟩ := Prod.mk.injEq .. ▸ Option.some.inj h
            subst h1; subst h2
            have := ih s1 s2 hf
            simp only [List.length_cons]
            omega

theorem findSpanD_of_append (chunk r : List Char) (h : '"' ∉ chunk) :
    findSpanD (chunk ++ '"' :: r) = some (chunk, r) := by
  induction chunk with
  | nil => simp [findSpanD]
  | cons c cs ih =>
      have hc : c ≠ '"' := fun hc => h (hc ▸ List.mem_cons_self c cs)
      have hcs : '"' ∉ cs := fun hm => h (List.mem_cons_of_mem c hm)
      simp only [List.cons_append, findSpanD, if_neg hc, List.append_eq,
        ih hcs, Option.map_some']

theorem findSpanD_of_noquote (l : List Char) (h : '"' ∉ l) :
    findSpanD l = none := by
  induction l with
  | nil => rfl
  | cons c cs ih =>
      have hc : c ≠ '"' := fun hc => h (hc ▸ List.mem_cons_self c cs)
      have hcs : '"' ∉ cs := fun hm => h (List.mem_cons_of_mem c hm)
      simp only [findSpanD, if_neg hc, ih hcs, Option.map_none']

theorem tryKeyMatch_length (l span rest' : List Char)
    (h : tryKeyMatch l = some (span, rest')) :
    l.length = span.length + 2 + rest'.length := by
  unfold tryKeyMatch at h
  cases hf : findSpanD l with
  | none => rw [hf] at h; simp at h
  | some pr =>
      obtain ⟨sp, rst⟩ := pr
      rw [hf] at h
      cases rst with
      | nil => simp at h
      | cons r0 rtail =>
          have h' : (if r0 = ':' ∧ sp ≠ [] then some (sp, rtail)
              else none) = some (span, rest') := h
          by_cases hcond : r0 = ':' ∧ sp ≠ []
          · rw [if_pos hcond] at h'
            obtain ⟨h1, h2⟩ := Prod.mk.injEq .. ▸ Option.some.inj h'
            subst h1; subst h2
            have := findSpanD_length l sp (r0 :: rtail) hf
            simp only [List.length_cons] at this
            omega
          · rw [if_neg hcond] at h'; simp at h'

theorem tryKeyMatch_key (key r : List Char) (hq : '"' ∉ key)
    (hne : key ≠ []) :
    tryKeyMatch (key ++ '"' :: ':' :: r) = some (key, r) := by
  unfold tryKeyMatch
  rw [findSpanD_of_append key (':' :: r) hq]
  simp [hne]

theorem tryKeyMatch_val (v tail : List Char) (hq : '"' ∉ v)
    (hc : tail.head? ≠ some ':') :
    tryKeyMatch (v ++ '"' :: tail) = none := by
  unfold tryKeyMatch
  rw [findSpanD_of_append v tail hq]
  cases tail with
  | nil => rfl
  | cons t ts =>
      have ht : t ≠ ':' := fun h => hc (by rw [h]; rfl)
      simp [ht]

theorem tryKeyMatch_noquote (l : List Char) (h : '"' ∉ l) :
    tryKeyMatch l = none := by
  unfold tryKeyMatch
  rw [findSpanD_of_noquote l h]

theorem unquoteScan_mono : ∀ n m l, l.length ≤ n → l.length ≤ m →
    unquoteScan n l = unquoteScan m l := by
  intro n
  induction n with
  | zero =>
      intro m l hn _
      have hl : l = [] := List.length_eq_zero.mp (Nat.le_zero.mp hn)
      subst hl
      cases m <;> rfl
  | succ n ih =>
      intro m l hn hm
      cases l with
      | nil => cases m <;> rfl
      | cons c rest =>
          cases m with
          | zero => exact absurd hm (by simp)
          | succ m' =>
              by_cases hc : c = '"'
              · cases hk : tryKeyMatch rest with
                | some pr =>
                    obtain ⟨span, rest'⟩ := pr
                    have hlen := tryKeyMatch_length rest span rest' hk
                    have h1 : rest'.length ≤ n := by
                      simp at hn; omega
                    have h2 : rest'.length ≤ m' := by
                      simp at hm; omega
                    simp only [unquoteScan, if_pos hc, hk,
                      ih m' rest' h1 h2]
                | none =>
                    have h1 : rest.length ≤ n := by simp at hn; omega
                    have h2 : rest.length ≤ m' := by simp at hm; omega
                    simp only [unquoteScan, if_pos hc, hk,
                      ih m' rest h1 h2]
              · have h1 : rest.length ≤ n := by simp at hn; omega
                have h2 : rest.length ≤ m' := by simp at hm; omega
                simp only [unquoteScan, if_neg hc, ih m' rest h1 h2]

theorem unquoteKeys_cons_match (rest span rest' : List Char)
    (h : tryKeyMatch rest = some (span, rest')) :
    unquoteKeys ('"' :: rest) = span ++ ':' :: unquoteKeys rest' := by
  have hlen := tryKeyMatch_length rest span rest' h
  unfold unquoteKeys
  simp only [List.length_cons, unquoteScan, h, eq_self_iff_true, if_true]
  rw [unquoteScan_mono rest.length rest'.length rest' (by omega)
    (Nat.le_refl _)]

theorem unquoteKeys_cons_nomatch (rest : List Char)
    (h : tryKeyMatch rest = none) :
    unquoteKeys ('"' :: rest) = '"' :: unquoteKeys rest := by
  unfold unquoteKeys
  simp only [List.length_cons, unquoteScan, h, eq_self_iff_true, if_true]

theorem unquoteKeys_cons_other (c : Char) (rest : List Char)
    (hc : c ≠ '"') :
    unquoteKeys (c :: rest) = c :: unquoteKeys rest := by
  unfold unquoteKeys
  simp only [List.length_cons, unquoteScan, if_neg hc]

theorem unquoteKeys_chunk (chunk rest : List Char) (h : '"' ∉ chunk) :
    unquoteKeys (chunk ++ rest) = chunk ++ unquoteKeys rest := by
  induction chunk with
  | nil => rfl
  | cons c cs ih =>
      have hc : c ≠ '"' := fun hc => h (hc ▸ List.mem_cons_self c cs)
      have hcs : '"' ∉ cs := fun hm => h (List.mem_cons_of_mem c hm)
      rw [List.cons_append, unquoteKeys_cons_other c _ hc, ih hcs,
        List.cons_append]

theorem unquoteKeys_noquote (l : List Char) (h : '"' ∉ l) :
    unquoteKeys l = l := by
  have h0 : unquoteKeys ([] : List Char) = [] := rfl
  have hc := unquoteKeys_chunk l [] h
  rw [List.append_nil, h0, List.append_nil] at hc
  exact hc

theorem unquoteKeys_key (key r : List Char) (hq : '"' ∉ key)
    (hne : key ≠ []) :
    unquoteKeys ('"' :: (key ++ '"' :: ':' :: r)) =
      key ++ ':' :: unquoteKeys r :=
  unquoteKeys_cons_match _ _ _ (tryKeyMatch_key key r hq hne)

theorem unquoteKeys_val (v tail : List Char) (hq : '"' ∉ v)
    (hc : tail.head? ≠ some ':') :
    unquoteKeys ('"' :: (v ++ '"' :: tail)) =
      '"' :: (v ++ unquoteKeys ('"' :: tail)) := by
  rw [unquoteKeys_cons_nomatch _ (tryKeyMatch_val v tail hq hc),
    unquoteKeys_chunk v ('"' :: tail) hq]

theorem hexDigit_ne_quote (n : Nat) (h : n ≤ 15) : hexDigit n ≠ '"' := by
  interval_cases n <;> decide

theorem jsonEscapeChar_noquote (c : Char) (hc : c ≠ '"') :
    '"' ∉ jsonEscapeChar c := by
  unfold jsonEscapeChar
  rw [if_neg hc]
  split
  · decide
  · split
    · decide
    · split
      · decide
      · split
        · decide
        · split
          · decide
          · split
            · decide
            · split
              · next hlt =>
                  have hd1 := hexDigit_ne_quote (c.toNat / 16) (by omega)
                  have hd2 := hexDigit_ne_quote (c.toNat % 16) (by omega)
                  intro hmem
                  simp only [List.mem_cons, List.mem_singleton,
                    List.not_mem_nil, or_false] at hmem
                  rcases hmem with h | h | h | h | h | h
                  · exact absurd h (by decide)
                  · exact absurd h (by decide)
                  · exact absurd h (by decide)
                  · exact absurd h (by decide)
                  · exact hd1 h.symm
                  · exact hd2 h.symm
              · intro hmem
                simp only [List.mem_singleton] at hmem
                exact hc hmem.symm

theorem jsonEscape_noquote (s : List Char) (h : '"' ∉ s) :
    '"' ∉ jsonEscape s := by
  intro hmem
  unfold jsonEscape at hmem
  rw [List.mem_flatMap] at hmem
  obtain ⟨c, hcs, hcc⟩ := hmem
  exact jsonEscapeChar_noquote c (fun hq => h (hq ▸ hcs)) hcc

/-- Unquoting trace over the rendered `entry`/`client` block with an
escaped string value in the middle: the two keys lose their quotes, the
value keeps its delimiters, and scanning continues on `rest`. -/
theorem unquote_entry_part (s rest : List Char) (hs : '"' ∉ s)
    (hhead : rest.head? ≠ some ':') (hkm : tryKeyMatch rest = none) :
    unquoteKeys ("\x7b\n  ".data ++ '"' :: ("entry".data ++ '"' :: ':' ::
      (" \x7b\n    ".data ++ '"' :: ("client".data ++ '"' :: ':' ::
        (' ' :: '"' :: (jsonEscape s ++ '"' :: rest)))))) =
    "\x7b\n  entry: \x7b\n    client: ".data ++ '"' ::
      (jsonEscape s ++ '"' :: unquoteKeys rest) := by
  have hesc := jsonEscape_noquote s hs
  rw [unquoteKeys_chunk _ _ (by decide),
    unquoteKeys_key _ _ (by decide) (by decide),
    unquoteKeys_chunk _ _ (by decide),
    unquoteKeys_key _ _ (by decide) (by decide),
    unquoteKeys_cons_other ' ' _ (by decide),
    unquoteKeys_val _ _ hesc hhead,
    unquoteKeys_cons_nomatch _ hkm]
  simp

/-- On a configuration none of whose string values contains a quote
character, the regex-based key unquoting coincides with serializing with
bare keys directly. -/
theorem configContent_eq_spec (c : Config)
    (h : ∀ e s, c.entry = some e → e.client = some s → '"' ∉ s) :
    configContent c = configContentSpec c := by
  obtain ⟨entry, tw⟩ := c
  cases entry with
  | none =>
      cases tw with
      | none => decide
      | some b => cases b <;> decide
  | some e =>
      obtain ⟨client⟩ := e
      cases client with
      | none =>
          cases tw with
          | none => decide
          | some b => cases b <;> decide
      | some s =>
          have hs : '"' ∉ s := h ⟨some s⟩ s rfl rfl
          cases tw with
          | none =>
              have e1 : jsonStringifyConfig ⟨some ⟨some s⟩, none⟩ =
                  "\x7b\n  ".data ++ '"' :: ("entry".data ++ '"' :: ':' ::
                    (" \x7b\n    ".data ++ '"' :: ("client".data ++ '"' ::
                      ':' :: (' ' :: '"' :: (jsonEscape s ++ '"' ::
                        "\n  \x7d\n\x7d".data))))) := by
                simp [jsonStringifyConfig, configPairs, entryJson,
                  renderPair, joinList, lbrace, rbrace]
              unfold configContent configContentSpec
              rw [e1, unquote_entry_part s _ hs (by decide) (by decide),
                show unquoteKeys "\n  \x7d\n\x7d".data =
                  "\n  \x7d\n\x7d".data by decide]
              simp [jsonStringifyUnquoted, entryJsonBare, renderPairBare,
                joinList, lbrace, rbrace]
          | some b =>
              cases b with
              | true =>
                  have e1 : jsonStringifyConfig ⟨some ⟨some s⟩, some true⟩ =
                      "\x7b\n  ".data ++ '"' :: ("entry".data ++ '"' :: ':' ::
                        (" \x7b\n    ".data ++ '"' :: ("client".data ++ '"' ::
                          ':' :: (' ' :: '"' :: (jsonEscape s ++ '"' ::
                            "\n  \x7d,\n  \"tailwindcss\": true\n\x7d".data))))) := by
                    simp [jsonStringifyConfig, configPairs, entryJson,
                      renderPair, joinList, lbrace, rbrace]
                  unfold configContent configContentSpec
                  rw [e1, unquote_entry_part s _ hs (by decide) (by decide),
                    show unquoteKeys
                        "\n  \x7d,\n  \"tailwindcss\": true\n\x7d".data =
                      "\n  \x7d,\n  tailwindcss: true\n\x7d".data by decide]
                  simp [jsonStringifyUnquoted, entryJsonBare, renderPairBare,
                    joinList, lbrace, rbrace]
              | false =>
                  have e1 : jsonStringifyConfig ⟨some ⟨some s⟩, some false⟩ =
                      "\x7b\n  ".data ++ '"' :: ("entry".data ++ '"' :: ':' ::
                        (" \x7b\n    ".data ++ '"' :: ("client".data ++ '"' ::
                          ':' :: (' ' :: '"' :: (jsonEscape s ++ '"' ::
                            "\n  \x7d,\n  \"tailwindcss\": false\n\x7d".data))))) := by
                    simp [jsonStringifyConfig, configPairs, entryJson,
                      renderPair, joinList, lbrace, rbrace]
                  unfold configContent configContentSpec
                  rw [e1, unquote_entry_part s _ hs (by decide) (by decide),
                    show unquoteKeys
                        "\n  \x7d,\n  \"tailwindcss\": false\n\x7d".data =
                      "\n  \x7d,\n  tailwindcss: false\n\x7d".data by decide]
                  simp [jsonStringifyUnquoted, entryJsonBare, renderPairBare,
                    joinList, lbrace, rbrace]

/-! ### Claim C9: the configuration updater -/

/-- C9 (amended): `updateConfigFile` — whatever was previously at the
configuration path (no existence check, no confirmation), when no I/O error
occurs it overwrites the file with `export default ` followed by the
serialized configuration, which — provided no string value of the
configuration contains a `"` character — equals the JSON serialization with
object keys unquoted; an I/O error is caught and returned as a failure
result with the state unchanged (no exception). -/
theorem updateConfigFile_spec (ioFail : List Char → Bool) (st : FState)
    (cwd : List Char) (c : Config)
    (hnq : ∀ e s, c.entry = some e → e.client = some s → '"' ∉ s) :
    (ioFail (configPathOf cwd) = false →
      updateConfigFile ioFail st cwd c =
        (⟨configPathOf cwd, true,
            "Updated config file at: ".data ++ CONFIG_FILE ++ ".ts".data⟩,
          fileSet st (configPathOf cwd) (configContentSpec c)) ∧
      fileGet (updateConfigFile ioFail st cwd c).2 (configPathOf cwd) =
        some (configContentSpec c)) ∧
    (ioFail (configPathOf cwd) = true →
      (updateConfigFile ioFail st cwd c).1.success = false ∧
      (updateConfigFile ioFail st cwd c).2 = st) := by
  have hcc := configContent_eq_spec c hnq
  constructor
  · intro hio
    have h1 : updateConfigFile ioFail st cwd c =
        (⟨configPathOf cwd, true,
            "Updated config file at: ".data ++ CONFIG_FILE ++ ".ts".data⟩,
          fileSet st (configPathOf cwd) (configContentSpec c)) := by
      unfold updateConfigFile
      rw [if_neg (by simp [hio]), hcc]
    refine ⟨h1, ?_⟩
    rw [h1]
    rw [fileGet_fileSet, if_pos rfl]
  · intro hio
    unfold updateConfigFile
    rw [if_pos hio]
    exact ⟨rfl, rfl⟩

/-- Witness for C9 at concrete inputs: the config file is overwritten (the
path held other content before) with the keys-unquoted serialization. -/
theorem updateConfigFile_spec_witness :
    fileGet (updateConfigFile (fun _ => false)
        ⟨[(configPathOf "/w".data, "old".data)], []⟩ "/w".data
        ⟨some ⟨some "src/client.tsx".data⟩, some true⟩).2
      (configPathOf "/w".data) =
    some (configContentSpec ⟨some ⟨some "src/client.tsx".data⟩,
      some true⟩) := by
  exact ((updateConfigFile_spec (fun _ => false)
      ⟨[(configPathOf "/w".data, "old".data)], []⟩ "/w".data
      ⟨some ⟨some "src/client.tsx".data⟩, some true⟩
      (by intro e s he hs; cases he; cases hs; decide)).1
    (by decide)).2

/-- C9 counterexample: for the configuration whose client string is `x":y`,
the content `updateConfigFile` writes is not the keys-unquoted
serialization — the global regex also rewrites inside the string value. -/
theorem updateConfigFile_counterexample :
    fileGet (updateConfigFile (fun _ => false) ⟨[], []⟩ "/w".data
        ⟨some ⟨some ('x' :: '"' :: ':' :: ['y'])⟩, none⟩).2
      (configPathOf "/w".data) =
      some (configContent ⟨some ⟨some ('x' :: '"' :: ':' :: ['y'])⟩,
        none⟩) ∧
    configContent ⟨some ⟨some ('x' :: '"' :: ':' :: ['y'])⟩, none⟩ ≠
      configContentSpec ⟨some ⟨some ('x' :: '"' :: ':' :: ['y'])⟩,
        none⟩ := by
  constructor
  · decide
  · decide

/-! ### State-lookup helper lemmas for the effectful operations -/

theorem existsSync_fileSet (st : FState) (p c q : List Char) (h : q ≠ p) :
    existsSync (fileSet st p c) q = existsSync st q := by
  unfold existsSync
  rw [show fileGet (fileSet st p c) q = fileGet st q from by
    rw [fileGet_fileSet, if_neg h]]
  rfl

theorem wfc_snd_skip (confirm ioFail : List Char → Bool) (st : FState)
    (p content msg : List Char) (h1 : existsSync st p = true)
    (h2 : confirm msg = false) :
    (writeFileWithConfirmation confirm ioFail st p content msg).2 = st := by
  unfold writeFileWithConfirmation
  rw [if_pos ⟨h1, by simp [h2]⟩]

theorem wfc_snd_write (confirm ioFail : List Char → Bool) (st : FState)
    (p content msg : List Char)
    (h : existsSync st p = false ∨ confirm msg = true)
    (hio : ioFail p = false) :
    (writeFileWithConfirmation confirm ioFail st p content msg).2 =
      fileSet st p content := by
  have hcond : ¬ (existsSync st p = true ∧ ¬ confirm msg = true) := by
    rcases h with h | h
    · exact fun hx => by rw [h] at hx; exact absurd hx.1 (by simp)
    · exact fun hx => hx.2 h
  unfold writeFileWithConfirmation
  rw [if_neg hcond, if_neg (by simp [hio])]

theorem wfc_snd_iofail (confirm ioFail : List Char → Bool) (st : FState)
    (p content msg : List Char) (hio : ioFail p = true) :
    (writeFileWithConfirmation confirm ioFail st p content msg).2 = st := by
  unfold writeFileWithConfirmation
  by_cases hcond : existsSync st p = true ∧ ¬ confirm msg = true
  · rw [if_pos hcond]
  · rw [if_neg hcond, if_pos hio]

theorem wfc_snd_cases (confirm ioFail : List Char → Bool) (st : FState)
    (p content msg : List Char) :
    (writeFileWithConfirmation confirm ioFail st p content msg).2 = st ∨
    (writeFileWithConfirmation confirm ioFail st p content msg).2 =
      fileSet st p content := by
  unfold writeFileWithConfirmation
  by_cases hcond : existsSync st p = true ∧ ¬ confirm msg = true
  · rw [if_pos hcond]
    exact .inl rfl
  · rw [if_neg hcond]
    by_cases hio : ioFail p = true
    · rw [if_pos hio]
      exact .inl rfl
    · rw [if_neg hio]
      exact .inr rfl

theorem wfc_preserves (confirm ioFail : List Char → Bool) (st : FState)
    (p content msg q : List Char) (h : q ≠ p) :
    fileGet (writeFileWithConfirmation confirm ioFail st p content msg).2 q
      = fileGet st q := by
  rcases wfc_snd_cases confirm ioFail st p content msg with hs | hs
  · rw [hs]
  · rw [hs, fileGet_fileSet, if_neg h]

theorem wfc_success_true (confirm ioFail : List Char → Bool) (st : FState)
    (p content msg : List Char)
    (h : existsSync st p = false ∨ confirm msg = true)
    (hio : ioFail p = false) :
    (writeFileWithConfirmation confirm ioFail st p content msg).1.success =
      true := by
  have hcond : ¬ (existsSync st p = true ∧ ¬ confirm msg = true) := by
    rcases h with h | h
    · exact fun hx => by rw [h] at hx; exact absurd hx.1 (by simp)
    · exact fun hx => hx.2 h
  unfold writeFileWithConfirmation
  rw [if_neg hcond, if_neg (by simp [hio])]

theorem wfc_success_false_skip (confirm ioFail : List Char → Bool)
    (st : FState) (p content msg : List Char)
    (h1 : existsSync st p = true) (h2 : confirm msg = false) :
    (writeFileWithConfirmation confirm ioFail st p content msg).1.success =
      false := by
  unfold writeFileWithConfirmation
  rw [if_pos ⟨h1, by simp [h2]⟩]

theorem wfc_success_false_iofail (confirm ioFail : List Char → Bool)
    (st : FState) (p content msg : List Char) (hio : ioFail p = true) :
    (writeFileWithConfirmation confirm ioFail st p content msg).1.success =
      false := by
  unfold writeFileWithConfirmation
  by_cases hcond : existsSync st p = true ∧ ¬ confirm msg = true
  · rw [if_pos hcond]
  · rw [if_neg hcond, if_pos hio]

theorem ucf_snd_ok (ioFail : List Char → Bool) (st : FState)
    (cwd : List Char) (c : Config)
    (hio : ioFail (configPathOf cwd) = false) :
    (updateConfigFile ioFail st cwd c).2 =
      fileSet st (configPathOf cwd) (configContent c) := by
  unfold updateConfigFile
  rw [if_neg (by simp [hio])]

theorem ucf_snd_fail (ioFail : List Char → Bool) (st : FState)
    (cwd : List Char) (c : Config)
    (hio : ioFail (configPathOf cwd) = true) :
    (updateConfigFile ioFail st cwd c).2 = st := by
  unfold updateConfigFile
  rw [if_pos hio]

theorem ucf_preserves (ioFail : List Char → Bool) (st : FState)
    (cwd : List Char) (c : Config) (q : List Char)
    (h : q ≠ configPathOf cwd) :
    fileGet (updateConfigFile ioFail st cwd c).2 q = fileGet st q := by
  by_cases hio : ioFail (configPathOf cwd) = true
  · rw [ucf_snd_fail ioFail st cwd c hio]
  · rw [ucf_snd_ok ioFail st cwd c (by simpa using hio), fileGet_fileSet,
      if_neg h]

/-! ### Claim C5: the tailwind generator -/

/-- C5: `generateTailwindcss` — after both confirmation-gated writes have
run, whatever each one's outcome, the configuration is persisted with the
`tailwindcss` flag set to `true` (first conjunct: no assumption is made
about the two writes); declining the overwrite prompt for the tailwind
config file leaves that file untouched (second conjunct, which assumes
nothing about the stylesheet write), and the stylesheet write proceeds
independently (third conjunct, which assumes nothing about the config-file
write). -/
theorem generateTailwindcss_spec (confirm ioFail : List Char → Bool)
    (st : FState) (cwd : List Char) (config : Config)
    (hd1 : configPathOf cwd ≠ tailwindConfigPathOf cwd)
    (hd2 : configPathOf cwd ≠ tailwindCSSPathOf cwd)
    (hd3 : tailwindCSSPathOf cwd ≠ tailwindConfigPathOf cwd) :
    (ioFail (configPathOf cwd) = false →
      fileGet (generateTailwindcss confirm ioFail st cwd config).2
          (configPathOf cwd) =
        some (configContent { config with tailwindcss := some true })) ∧
    (existsSync (ensureDir st (posixJoin cwd "src".data))
        (tailwindConfigPathOf cwd) = true →
      confirm twConfigMsg = false →
      fileGet (generateTailwindcss confirm ioFail st cwd config).2
          (tailwindConfigPathOf cwd) =
        fileGet st (tailwindConfigPathOf cwd)) ∧
    (existsSync (ensureDir st (posixJoin cwd "src".data))
        (tailwindCSSPathOf cwd) = false →
      ioFail (tailwindCSSPathOf cwd) = false →
      fileGet (generateTailwindcss confirm ioFail st cwd config).2
          (tailwindCSSPathOf cwd) = some tailwindCSSContent) := by
  have hG : (generateTailwindcss confirm ioFail st cwd config).2 =
      (updateConfigFile ioFail
        (writeFileWithConfirmation confirm ioFail
          (writeFileWithConfirmation confirm ioFail
            (ensureDir st (posixJoin cwd "src".data))
            (tailwindConfigPathOf cwd) tailwindConfigContent twConfigMsg).2
          (tailwindCSSPathOf cwd) tailwindCSSContent twCSSMsg).2
        cwd { config with tailwindcss := some true }).2 := rfl
  refine ⟨fun hio => ?_, fun hex hc => ?_, fun hex hio => ?_⟩
  · rw [hG, ucf_snd_ok _ _ _ _ hio, fileGet_fileSet, if_pos rfl]
  · rw [hG, ucf_preserves _ _ _ _ _ (Ne.symm hd1),
      wfc_preserves _ _ _ _ _ _ _ (Ne.symm hd3),
      wfc_snd_skip _ _ _ _ _ _ hex hc, fileGet_ensureDir]
  · rcases wfc_snd_cases confirm ioFail
        (ensureDir st (posixJoin cwd "src".data))
        (tailwindConfigPathOf cwd) tailwindConfigContent twConfigMsg
      with h1 | h1
    · rw [hG, ucf_preserves _ _ _ _ _ (Ne.symm hd2), h1,
        wfc_snd_write _ _ _ _ _ _ (Or.inl hex) hio, fileGet_fileSet,
        if_pos rfl]
    · rw [hG, ucf_preserves _ _ _ _ _ (Ne.symm hd2), h1,
        wfc_snd_write _ _ _ _ _ _
          (Or.inl (by rw [existsSync_fileSet _ _ _ _ hd3]; exact hex)) hio,
        fileGet_fileSet, if_pos rfl]

/-- Witness for C5 in an empty project: both files are created and the
configuration is persisted with the flag set. -/
theorem generateTailwindcss_spec_witness :
    fileGet (generateTailwindcss (fun _ => false) (fun _ => false) ⟨[], []⟩
        "/w".data ⟨none, none⟩).2 (tailwindCSSPathOf "/w".data) =
      some tailwindCSSContent ∧
    fileGet (generateTailwindcss (fun _ => false) (fun _ => false) ⟨[], []⟩
        "/w".data ⟨none, none⟩).2 (configPathOf "/w".data) =
      some (configContent
        { (⟨none, none⟩ : Config) with tailwindcss := some true }) := by
  have h := generateTailwindcss_spec (fun _ => false) (fun _ => false)
    ⟨[], []⟩ "/w".data ⟨none, none⟩ (by decide) (by decide) (by decide)
  exact ⟨h.2.2 (by decide) (by decide), h.1 (by decide)⟩

/-! ### Claim C4: the entry generator's synchronization step -/

/-- C4: `generateEntry` — when the framework temp directory is absent, the
`sync` collaborator is invoked exactly once (before the template is read),
and if the template file is still absent in the synchronized state the
operation throws the explicit error, the filesystem being exactly the
synchronized state: the generator has written nothing (in particular not
the destination file). -/
theorem generateEntry_sync_spec (pcwd : List Char)
    (confirm ioFail : List Char → Bool) (syncF : FState → FState)
    (st : FState) (cwd : List Char) (config : Config)
    (habs : existsSync st (tnfPathOf cwd) = false) :
    (generateEntry pcwd confirm ioFail syncF st cwd config).1 = 1 ∧
    (existsSync (syncF st) (clientSrcPathOf cwd) = false →
      generateEntry pcwd confirm ioFail syncF st cwd config =
        (1, .error ("client.tsx template not found in .tnf directory".data,
          syncF st))) := by
  have hs2 : (if existsSync st (tnfPathOf cwd) = true then ((0 : Nat), st)
      else (1, syncF st)) = (1, syncF st) := if_neg (by simp [habs])
  constructor
  · show (generateEntry pcwd confirm ioFail syncF st cwd config).1 = 1
    unfold generateEntry
    rw [hs2]
    dsimp only
    split
    · rfl
    · split
      · rfl
      · rfl
  · intro hmiss
    unfold generateEntry
    rw [hs2]
    dsimp only
    rw [if_pos (by simp [hmiss])]

/-- Witness for C4: with an identity synchronizer and an empty project the
template stays missing, so the operation errors after exactly one sync. -/
theorem generateEntry_sync_spec_witness :
    generateEntry "/".data (fun _ => true) (fun _ => false) (fun s => s)
      ⟨[], []⟩ "/w".data ⟨none, none⟩ =
    (1, .error ("client.tsx template not found in .tnf directory".data,
      ⟨[], []⟩)) := by
  exact (generateEntry_sync_spec "/".data (fun _ => true) (fun _ => false)
    (fun s => s) ⟨[], []⟩ "/w".data ⟨none, none⟩ (by decide)).2 (by decide)

/-! ### Claim C7: the entry generator's configuration update -/

/-- C7: `generateEntry` — when the write of the entry file is skipped
(decline) or fails (I/O error), the returned state is the input state: the
configuration file is not rewritten; when the write succeeds (and the
configuration write itself does not I/O-fail) the configuration file holds
the serialized configuration whose entry `client` field has been set to the
fixed path `src/client.tsx`. -/
theorem generateEntry_config_spec (pcwd : List Char)
    (confirm ioFail : List Char → Bool) (syncF : FState → FState)
    (st : FState) (cwd : List Char) (config : Config)
    (htnf : existsSync st (tnfPathOf cwd) = true)
    (hsrc : existsSync st (clientSrcPathOf cwd) = true) :
    ((existsSync st (clientDestPathOf cwd) = true ∧
        confirm entryMsg = false) ∨ ioFail (clientDestPathOf cwd) = true →
      generateEntry pcwd confirm ioFail syncF st cwd config =
        (0, .ok st)) ∧
    ((existsSync st (clientDestPathOf cwd) = false ∨
        confirm entryMsg = true) →
      ioFail (clientDestPathOf cwd) = false →
      ioFail (configPathOf cwd) = false →
      ∃ st', generateEntry pcwd confirm ioFail syncF st cwd config =
          (0, .ok st') ∧
        fileGet st' (configPathOf cwd) = some (configContent
          { config with entry := some ⟨some "src/client.tsx".data⟩ })) := by
  have hs2 : (if existsSync st (tnfPathOf cwd) = true then ((0 : Nat), st)
      else (1, syncF st)) = (0, st) := if_pos htnf
  constructor
  · intro h
    unfold generateEntry
    rw [hs2]
    dsimp only
    rw [if_neg (by simp [hsrc])]
    rcases h with ⟨hex, hc⟩ | hio
    · rw [if_neg (by simp [wfc_success_false_skip confirm ioFail st
          (clientDestPathOf cwd) _ entryMsg hex hc]),
        wfc_snd_skip confirm ioFail st (clientDestPathOf cwd) _ entryMsg
          hex hc]
    · rw [if_neg (by simp [wfc_success_false_iofail confirm ioFail st
          (clientDestPathOf cwd) _ entryMsg hio]),
        wfc_snd_iofail confirm ioFail st (clientDestPathOf cwd) _ entryMsg
          hio]
  · intro h hio hioc
    refine ⟨(updateConfigFile ioFail
        (writeFileWithConfirmation confirm ioFail st (clientDestPathOf cwd)
          (processImportPaths pcwd
            ((fileGet st (clientSrcPathOf cwd)).getD [])
            (clientSrcPathOf cwd) (clientDestPathOf cwd)) entryMsg).2
        cwd (setEntryClient config)).2, ?_, ?_⟩
    · unfold generateEntry
      rw [hs2]
      dsimp only
      rw [if_neg (by simp [hsrc])]
      rw [if_pos (by simp [wfc_success_true confirm ioFail st
          (clientDestPathOf cwd) _ entryMsg h hio])]
    · rw [ucf_snd_ok _ _ _ _ hioc, fileGet_fileSet, if_pos rfl]
      rfl

/-- Witness for C7: with the template present and no file at the
destination, the entry write succeeds and the configuration is
persisted. -/
theorem generateEntry_config_spec_witness :
    ∃ st', generateEntry "/".data (fun _ => true) (fun _ => false)
        (fun s => s)
        ⟨[(clientSrcPathOf "/w".data, "x".data)], [tnfPathOf "/w".data]⟩
        "/w".data ⟨none, none⟩ = (0, .ok st') ∧
      fileGet st' (configPathOf "/w".data) = some (configContent
        { (⟨none, none⟩ : Config) with
            entry := some ⟨some "src/client.tsx".data⟩ }) := by
  exact (generateEntry_config_spec "/".data (fun _ => true)
    (fun _ => false) (fun s => s)
    ⟨[(clientSrcPathOf "/w".data, "x".data)], [tnfPathOf "/w".data]⟩
    "/w".data ⟨none, none⟩ (by decide) (by decide)).2 (by decide)
    (by decide) (by decide)

/-! ### Claim C8: the command dispatcher's interactive selection -/

/-- C8 (amended): when the requested type is absent (or empty, which is
falsy), the dispatcher resolves it through the single-choice prompt over
the fixed option list `generateCommands` — which offers `entry` and
`tailwindcss` but not `page` — and dispatches the selection to the
corresponding handler with the normalized configuration, rather than
failing. -/
theorem generate_select_spec (choose : List (List Char) → List Char)
    (confirm ioFail : List Char → Bool) (color pcwd : List Char)
    (syncF : FState → FState) (name cwd : List Char) (rawConfig : Config)
    (st : FState) :
    (selectedTypeOf none choose = choose generateCommands ∧
      selectedTypeOf (some []) choose = choose generateCommands) ∧
    (choose generateCommands = "entry".data →
      generate choose confirm ioFail color pcwd syncF none name cwd
          rawConfig st =
        (generateEntry pcwd confirm ioFail syncF st cwd
          (normalizeConfig rawConfig)).2) ∧
    (choose generateCommands = "tailwindcss".data →
      generate choose confirm ioFail color pcwd syncF none name cwd
          rawConfig st =
        .ok (generateTailwindcss confirm ioFail st cwd
          (normalizeConfig rawConfig)).2) := by
  refine ⟨⟨rfl, rfl⟩, fun hc => ?_, fun hc => ?_⟩
  · show (if selectedTypeOf none choose = "page".data then _
      else if selectedTypeOf none choose = "tailwindcss".data then _
      else if selectedTypeOf none choose = "entry".data then _
      else _) = _
    rw [show selectedTypeOf none choose = choose generateCommands from rfl,
      hc, if_neg (by decide), if_neg (by decide), if_pos rfl]
  · show (if selectedTypeOf none choose = "page".data then _
      else if selectedTypeOf none choose = "tailwindcss".data then _
      else _) = _
    rw [show selectedTypeOf none choose = choose generateCommands from rfl,
      hc, if_neg (by decide), if_pos rfl]

/-- Witness for C8 at a concrete selection: the oracle picks `entry` and
the entry handler runs. -/
theorem generate_select_spec_witness :
    generate (fun _ => "entry".data) (fun _ => true) (fun _ => false)
      "ff0000".data "/".data (fun s => s) none "n".data "/w".data
      ⟨none, none⟩ ⟨[], []⟩ =
    (generateEntry "/".data (fun _ => true) (fun _ => false) (fun s => s)
      ⟨[], []⟩ "/w".data (normalizeConfig ⟨none, none⟩)).2 := by
  exact (generate_select_spec (fun _ => "entry".data) (fun _ => true)
    (fun _ => false) "ff0000".data "/".data (fun s => s) "n".data
    "/w".data ⟨none, none⟩ ⟨[], []⟩).2.1 rfl

/-- C8 counterexample: the option list the prompt is handed is
`generateCommands`, which does not contain `page` and is not the claimed
three-element set — an oracle that answers `page` exactly when it is
offered shows the prompt never offers it. -/
theorem generate_select_counterexample :
    selectedTypeOf none
        (fun opts => if "page".data ∈ opts then "page".data
          else "entry".data) = "entry".data ∧
    ¬ ("page".data ∈ generateCommands) ∧
    generateCommands ≠ ["page".data, "tailwindcss".data, "entry".data] := by
  refine ⟨by decide, by decide, by decide⟩

/-! ### Claim C10: only from-clause specifiers are rewritten -/

theorem tryFromMatch_shape (l : List Char)
    (x : Char × List Char × Char × List Char)
    (h : tryFromMatch l = some x) : ∃ t, l = "from ".data ++ t := by
  cases l with
  | nil => simp [tryFromMatch] at h
  | cons c1 l1 => cases l1 with
    | nil => simp [tryFromMatch] at h
    | cons c2 l2 => cases l2 with
      | nil => simp [tryFromMatch] at h
      | cons c3 l3 => cases l3 with
        | nil => simp [tryFromMatch] at h
        | cons c4 l4 => cases l4 with
          | nil => simp [tryFromMatch] at h
          | cons c5 l5 => cases l5 with
            | nil => simp [tryFromMatch] at h
            | cons q1 rest =>
                have h' : (if [c1, c2, c3, c4, c5] = "from ".data ∧
                      quoteCh q1 = true then
                    (match findSpanQ rest with
                     | some (span, q2, rest') =>
                         if span = [] then none
                         else some (q1, span, q2, rest')
                     | none => none)
                    else none) = some x := h
                by_cases hcond : [c1, c2, c3, c4, c5] = "from ".data ∧
                    quoteCh q1 = true
                · obtain ⟨h5, _⟩ := hcond
                  have he : c1 = 'f' ∧ c2 = 'r' ∧ c3 = 'o' ∧ c4 = 'm' ∧
                      c5 = ' ' := by simpa using h5
                  obtain ⟨e1, e2, e3, e4, e5⟩ := he
                  subst e1; subst e2; subst e3; subst e4; subst e5
                  exact ⟨q1 :: rest, rfl⟩
                · rw [if_neg hcond] at h'
                  simp at h'

theorem scanImports_id (cwd sp dp : List Char) :
    ∀ (n : Nat) (l : List Char), occursIn "from ".data l = false →
      scanImports cwd sp dp n l = l := by
  intro n
  induction n with
  | zero => intro l _; rfl
  | succ n ih =>
      intro l hl
      cases l with
      | nil => rfl
      | cons c rest =>
          simp only [occursIn, Bool.or_eq_false_iff,
            decide_eq_false_iff_not] at hl
          obtain ⟨hhead, hrest⟩ := hl
          cases hm : tryFromMatch (c :: rest) with
          | some x =>
              obtain ⟨t, ht⟩ := tryFromMatch_shape (c :: rest) x hm
              exact absurd (by rw [ht]; simp) hhead
          | none =>
              simp only [scanImports, hm, ih rest hrest]

/-! ### Segment-level lemmas for the POSIX path model -/

/-- Well-formedness of raw split segments: non-empty and slash-free. -/
def wfSegs (L : List (List Char)) : Prop :=
  ∀ s ∈ L, s ≠ [] ∧ '/' ∉ s

/-- Cleanliness of fully resolved segments: additionally neither `.` nor
`..`. -/
def cleanSegs (L : List (List Char)) : Prop :=
  ∀ s ∈ L, s ≠ [] ∧ '/' ∉ s ∧ s ≠ ['.'] ∧ s ≠ ['.', '.']

theorem cleanSegs_wf {L : List (List Char)} (h : cleanSegs L) : wfSegs L :=
  fun s hs => ⟨(h s hs).1, (h s hs).2.1⟩

theorem splitSegsAux_wf : ∀ (l acc : List Char), '/' ∉ acc →
    wfSegs (splitSegsAux l acc) := by
  intro l
  induction l with
  | nil =>
      intro acc hacc
      unfold splitSegsAux
      by_cases hne : acc = []
      · rw [if_pos hne]
        intro s hs
        simp at hs
      · rw [if_neg hne]
        intro s hs
        rw [List.mem_singleton] at hs
        subst hs
        exact ⟨by simpa using hne, by simpa using hacc⟩
  | cons c rest ih =>
      intro acc hacc
      unfold splitSegsAux
      by_cases hc : c = '/'
      · rw [if_pos hc]
        by_cases hne : acc = []
        · rw [if_pos hne]
          exact ih [] (by simp)
        · rw [if_neg hne]
          intro s hs
          rcases List.mem_cons.mp hs with h | h
          · subst h
            exact ⟨by simpa using hne, by simpa using hacc⟩
          · exact ih [] (by simp) s h
      · rw [if_neg hc]
        refine ih (c :: acc) ?_
        intro hm
        rcases List.mem_cons.mp hm with h | h
        · exact hc h.symm
        · exact hacc h

theorem splitSegs_wf (l : List Char) : wfSegs (splitSegs l) :=
  splitSegsAux_wf l [] (by simp)

theorem splitSegsAux_slash_nil (x : List Char) :
    splitSegsAux ('/' :: x) [] = splitSegsAux x [] := rfl

theorem splitSegsAux_slash (x acc : List Char) (h : acc ≠ []) :
    splitSegsAux ('/' :: x) acc = acc.reverse :: splitSegsAux x [] := by
  show (if acc = [] then splitSegsAux x []
    else acc.reverse :: splitSegsAux x []) = _
  rw [if_neg h]

theorem splitSegsAux_other (c : Char) (x acc : List Char) (h : c ≠ '/') :
    splitSegsAux (c :: x) acc = splitSegsAux x (c :: acc) := by
  show (if c = '/' then _ else splitSegsAux x (c :: acc)) = _
  rw [if_neg h]

theorem splitSegsAux_append_slash : ∀ (a b acc : List Char),
    splitSegsAux (a ++ '/' :: b) acc =
      splitSegsAux a acc ++ splitSegsAux b [] := by
  intro a
  induction a with
  | nil =>
      intro b acc
      by_cases hacc : acc = []
      · subst hacc
        rw [List.nil_append, splitSegsAux_slash_nil]
        rfl
      · rw [List.nil_append, splitSegsAux_slash b acc hacc,
          show splitSegsAux [] acc = [acc.reverse] from by
            show (if acc = [] then [] else [acc.reverse]) = _
            rw [if_neg hacc]]
        rfl
  | cons c cs ih =>
      intro b acc
      by_cases hc : c = '/'
      · subst hc
        by_cases hacc : acc = []
        · subst hacc
          rw [List.cons_append, splitSegsAux_slash_nil,
            splitSegsAux_slash_nil, ih b []]
        · rw [List.cons_append, splitSegsAux_slash _ acc hacc,
            splitSegsAux_slash cs acc hacc, ih b [], List.cons_append]
      · rw [List.cons_append, splitSegsAux_other c _ acc hc,
          splitSegsAux_other c cs acc hc, ih b (c :: acc)]

theorem splitSegsAux_concat_slash (a acc : List Char) :
    splitSegsAux (a ++ ['/']) acc = splitSegsAux a acc := by
  have h := splitSegsAux_append_slash a [] acc
  simpa [splitSegsAux] using h

theorem splitSegsAux_noslash : ∀ (s acc : List Char), '/' ∉ s →
    acc.reverse ++ s ≠ [] → splitSegsAux s acc = [acc.reverse ++ s] := by
  intro s
  induction s with
  | nil =>
      intro acc _ hne
      unfold splitSegsAux
      rw [if_neg (by simpa using hne)]
      simp
  | cons c cs ih =>
      intro acc hs hne
      have hc : c ≠ '/' := fun h => hs (h ▸ List.mem_cons_self c cs)
      have hcs : '/' ∉ cs := fun h => hs (List.mem_cons_of_mem c h)
      unfold splitSegsAux
      rw [if_neg hc, ih (c :: acc) hcs (by simp)]
      simp

theorem joinSegs_cons (s : List Char) (rest : List (List Char))
    (h : rest ≠ []) : joinSegs (s :: rest) = s ++ '/' :: joinSegs rest := by
  cases rest with
  | nil => exact absurd rfl h
  | cons t ts => rfl

theorem splitSegs_joinSegs : ∀ (L : List (List Char)), wfSegs L →
    splitSegs (joinSegs L) = L := by
  intro L
  induction L with
  | nil => intro _; rfl
  | cons s rest ih =>
      intro hwf
      have hs := hwf s (List.mem_cons_self s rest)
      cases rest with
      | nil =>
          show splitSegsAux s [] = [s]
          rw [splitSegsAux_noslash s [] hs.2 (by simpa using hs.1)]
          simp
      | cons t ts =>
          rw [joinSegs_cons s (t :: ts) (by simp)]
          show splitSegsAux (s ++ '/' :: joinSegs (t :: ts)) [] = _
          rw [splitSegsAux_append_slash,
            splitSegsAux_noslash s [] hs.2 (by simpa using hs.1)]
          have hrest := ih (fun x hx => hwf x (List.mem_cons_of_mem s hx))
          show [[] ++ s] ++ splitSegs (joinSegs (t :: ts)) = _
          rw [hrest]
          simp

theorem normStep_push (ab : Bool) (acc : List (List Char))
    (seg : List Char) (h1 : seg ≠ ['.']) (h2 : seg ≠ ['.', '.']) :
    normStep ab acc seg = acc ++ [seg] := by
  unfold normStep
  rw [if_neg h1, if_neg h2]

theorem normStep_dot (ab : Bool) (acc : List (List Char)) :
    normStep ab acc ['.'] = acc := by
  unfold normStep
  rw [if_pos rfl]

theorem normStep_dotdot (acc : List (List Char)) (hacc : cleanSegs acc) :
    normStep false acc ['.', '.'] = acc.dropLast := by
  unfold normStep
  rw [if_neg (by decide), if_pos rfl]
  by_cases hne : acc = []
  · subst hne
    rw [if_neg (by simp), if_neg (by simp)]
    rfl
  · have hlast : acc.getLast? ≠ some ['.', '.'] := by
      rw [List.getLast?_eq_getLast_of_ne_nil hne]
      intro hcontra
      exact (hacc _ (List.getLast_mem hne)).2.2.2 (Option.some.inj hcontra)
    rw [if_pos ⟨hne, hlast⟩]

theorem foldl_normStep_push (ab : Bool) :
    ∀ (M : List (List Char)) (acc : List (List Char)),
      (∀ s ∈ M, s ≠ ['.'] ∧ s ≠ ['.', '.']) →
      List.foldl (normStep ab) acc M = acc ++ M := by
  intro M
  induction M with
  | nil => intro acc _; simp
  | cons s rest ih =>
      intro acc hM
      have hs := hM s (List.mem_cons_self s rest)
      rw [List.foldl_cons, normStep_push ab acc s hs.1 hs.2,
        ih (acc ++ [s]) (fun x hx => hM x (List.mem_cons_of_mem s hx))]
      simp

theorem cleanSegs_dropLast {A : List (List Char)} (h : cleanSegs A) :
    cleanSegs A.dropLast :=
  fun s hs => h s (List.dropLast_subset A hs)

theorem cleanSegs_take {A : List (List Char)} (h : cleanSegs A) (n : Nat) :
    cleanSegs (A.take n) :=
  fun s hs => h s (List.take_subset n A hs)

theorem foldl_normStep_dotdot :
    ∀ (n : Nat) (A : List (List Char)), cleanSegs A →
      List.foldl (normStep false) A (List.replicate n ['.', '.']) =
        A.take (A.length - n) := by
  intro n
  induction n with
  | zero => intro A _; simp
  | succ n ih =>
      intro A hA
      rw [List.replicate_succ, List.foldl_cons, normStep_dotdot A hA,
        ih A.dropLast (cleanSegs_dropLast hA)]
      have hlen : A.dropLast.length = A.length - 1 := by
        simp [List.length_dropLast]
      rw [hlen, List.dropLast_eq_take, List.take_take]
      congr 1
      omega

theorem foldl_normStep_clean : ∀ (L : List (List Char))
    (acc : List (List Char)), wfSegs L → cleanSegs acc →
    cleanSegs (List.foldl (normStep false) acc L) := by
  intro L
  induction L with
  | nil => intro acc _ hacc; simpa using hacc
  | cons s rest ih =>
      intro acc hL hacc
      rw [List.foldl_cons]
      refine ih (normStep false acc s)
        (fun x hx => hL x (List.mem_cons_of_mem s hx)) ?_
      have hs := hL s (List.mem_cons_self s rest)
      unfold normStep
      by_cases h1 : s = ['.']
      · rw [if_pos h1]; exact hacc
      · rw [if_neg h1]
        by_cases h2 : s = ['.', '.']
        · rw [if_pos h2]
          by_cases h3 : acc ≠ [] ∧ acc.getLast? ≠ some ['.', '.']
          · rw [if_pos h3]
            exact cleanSegs_dropLast hacc
          · rw [if_neg h3, if_neg (by simp)]
            exact hacc
        · rw [if_neg h2]
          intro x hx
          rcases List.mem_append.mp hx with h | h
          · exact hacc x h
          · rw [List.mem_singleton] at h
            subst h
            exact ⟨hs.1, hs.2, h1, h2⟩

theorem commonLen_le_left : ∀ (A B : List (List Char)),
    commonLen A B ≤ A.length := by
  intro A
  induction A with
  | nil => intro B; cases B <;> simp [commonLen]
  | cons a as ih =>
      intro B
      cases B with
      | nil => simp [commonLen]
      | cons b bs =>
          by_cases hab : a = b
          · simpa [commonLen, hab] using Nat.succ_le_succ (ih bs)
          · simp [commonLen, hab]

theorem commonLen_take : ∀ (A B : List (List Char)),
    A.take (commonLen A B) = B.take (commonLen A B) := by
  intro A
  induction A with
  | nil => intro B; cases B <;> simp [commonLen]
  | cons a as ih =>
      intro B
      cases B with
      | nil => simp [commonLen]
      | cons b bs =>
          by_cases hab : a = b
          · subst hab
            rw [show commonLen (a :: as) (a :: bs) = commonLen as bs + 1
              from by simp [commonLen]]
            simp only [List.take_succ_cons, ih bs]
          · simp [commonLen, hab]

theorem commonLen_full {A B : List (List Char)}
    (hk : commonLen A B = A.length) (hd : B.length ≤ A.length) : A = B := by
  induction A generalizing B with
  | nil =>
      cases B with
      | nil => rfl
      | cons b bs => simp at hd
  | cons a as ih =>
      cases B with
      | nil => simp [commonLen] at hk
      | cons b bs =>
          by_cases hab : a = b
          · subst hab
            rw [show commonLen (a :: as) (a :: bs) = commonLen as bs + 1
                from by simp [commonLen]] at hk
            simp only [List.length_cons] at hk hd
            rw [ih (Nat.succ_injective hk) (Nat.le_of_succ_le_succ hd)]
          · simp [commonLen, hab] at hk

/-! ### Structure of `posixResolve` with an absolute working directory -/

/-- The resolved segment list underlying `posixResolve`. -/
def resSegs (cwd : List Char) (args : List (List Char)) :
    List (List Char) :=
  normSegs false (splitSegs (resolveJoined cwd args).1)

theorem isAbs_ne_nil {l : List Char} (h : isAbs l = true) : l ≠ [] := by
  cases l with
  | nil => simp [isAbs] at h
  | cons c cs => simp

theorem resolveStep_skip (part : List Char) (acc : List Char × Bool)
    (h : acc.2 = true) : resolveStep part acc = acc := by
  unfold resolveStep
  rw [if_pos h]

theorem resolveStep_nil (acc : List Char × Bool) :
    resolveStep [] acc = acc := by
  unfold resolveStep
  by_cases h : acc.2 = true
  · rw [if_pos h]
  · rw [if_neg h, if_pos rfl]

theorem resolveStep_go (part : List Char) (acc : List Char × Bool)
    (h : acc.2 = false) (hne : part ≠ []) :
    resolveStep part acc = (part ++ '/' :: acc.1, isAbs part) := by
  unfold resolveStep
  rw [if_neg (by simp [h]), if_neg hne]

theorem resolveJoined_snd (cwd : List Char) (args : List (List Char))
    (hcwd : isAbs cwd = true) : (resolveJoined cwd args).2 = true := by
  unfold resolveJoined
  dsimp only
  by_cases hf : (args.foldr resolveStep ([], false)).2 = true
  · rw [if_pos hf]
    exact hf
  · rw [if_neg hf, if_neg (isAbs_ne_nil hcwd)]
    exact hcwd

theorem resolve_abs (cwd : List Char) (args : List (List Char))
    (hcwd : isAbs cwd = true) :
    posixResolve cwd args = '/' :: joinSegs (resSegs cwd args) := by
  unfold posixResolve resSegs
  simp only [resolveJoined_snd cwd args hcwd, Bool.not_true,
    eq_self_iff_true, if_true]

theorem resSegs_clean (cwd : List Char) (args : List (List Char)) :
    cleanSegs (resSegs cwd args) :=
  foldl_normStep_clean _ [] (splitSegs_wf _) (fun s hs => absurd hs
    (List.not_mem_nil s))

theorem splitSegs_abs_join (S : List (List Char)) (hS : wfSegs S) :
    splitSegs (('/' :: joinSegs S) ++ ['/']) = S := by
  show splitSegsAux (('/' :: joinSegs S) ++ ['/']) [] = S
  rw [List.cons_append, splitSegsAux_slash_nil, splitSegsAux_concat_slash]
  exact splitSegs_joinSegs S hS

theorem resolve_idem (cwd : List Char) (args : List (List Char))
    (hcwd : isAbs cwd = true) :
    posixResolve cwd [posixResolve cwd args] = posixResolve cwd args := by
  rw [resolve_abs cwd args hcwd]
  have hS := resSegs_clean cwd args
  have hjoin : resolveJoined cwd ['/' :: joinSegs (resSegs cwd args)] =
      (('/' :: joinSegs (resSegs cwd args)) ++ ['/'], true) := by
    unfold resolveJoined
    dsimp only [List.foldr]
    rw [resolveStep_go _ _ rfl (by simp)]
    dsimp only
    rw [show isAbs ('/' :: joinSegs (resSegs cwd args)) = true from rfl,
      if_pos rfl]
  unfold posixResolve
  rw [hjoin]
  show '/' :: joinSegs (normSegs false
      (splitSegs (('/' :: joinSegs (resSegs cwd args)) ++ ['/']))) =
    '/' :: joinSegs (resSegs cwd args)
  rw [splitSegs_abs_join _ (cleanSegs_wf hS)]
  show '/' :: joinSegs (List.foldl (normStep false) [] (resSegs cwd args)) =
    _
  rw [foldl_normStep_push false (resSegs cwd args) []
    (fun s hs => ⟨(hS s hs).2.2.1, (hS s hs).2.2.2⟩), List.nil_append]

theorem resolveJoined_pair (cwd x q : List Char) (hcwd : isAbs cwd = true)
    (hq : q ≠ []) (hqa : isAbs q = false) :
    ∃ W, (resolveJoined cwd [x, q]).1 = W ++ '/' :: (q ++ ['/']) ∧
      (resolveJoined cwd [x]).1 = W ++ ['/'] := by
  have hq1 : List.foldr resolveStep (([] : List Char), false) [x, q] =
      resolveStep x (q ++ ['/'], false) := by
    dsimp only [List.foldr]
    rw [resolveStep_go q ([], false) rfl hq, hqa]
  by_cases hx : x = []
  · refine ⟨cwd, ?_, ?_⟩
    · unfold resolveJoined
      rw [hq1, hx, resolveStep_nil]
      dsimp only
      rw [if_neg (by simp), if_neg (isAbs_ne_nil hcwd)]
    · unfold resolveJoined
      dsimp only [List.foldr]
      rw [hx, resolveStep_nil]
      dsimp only
      rw [if_neg (by simp), if_neg (isAbs_ne_nil hcwd)]
  · by_cases hxa : isAbs x = true
    · refine ⟨x, ?_, ?_⟩
      · unfold resolveJoined
        rw [hq1, resolveStep_go x (q ++ ['/'], false) rfl hx, hxa]
        dsimp only
        rw [if_pos rfl]
      · unfold resolveJoined
        dsimp only [List.foldr]
        rw [resolveStep_go x ([], false) rfl hx, hxa]
        dsimp only
        rw [if_pos rfl]
    · have hxa' : isAbs x = false := by simpa using hxa
      refine ⟨cwd ++ '/' :: x, ?_, ?_⟩
      · unfold resolveJoined
        rw [hq1, resolveStep_go x (q ++ ['/'], false) rfl hx, hxa']
        dsimp only
        rw [if_neg (by simp), if_neg (isAbs_ne_nil hcwd)]
        simp
      · unfold resolveJoined
        dsimp only [List.foldr]
        rw [resolveStep_go x ([], false) rfl hx, hxa']
        dsimp only
        rw [if_neg (by simp), if_neg (isAbs_ne_nil hcwd)]
        simp

theorem resSegs_pair (cwd x q : List Char) (hcwd : isAbs cwd = true)
    (hq : q ≠ []) (hqa : isAbs q = false) :
    resSegs cwd [x, q] =
      List.foldl (normStep false) (resSegs cwd [x]) (splitSegs q) := by
  obtain ⟨W, h2, h1⟩ := resolveJoined_pair cwd x q hcwd hq hqa
  unfold resSegs
  rw [h2, h1]
  rw [show splitSegs (W ++ '/' :: (q ++ ['/'])) =
      splitSegs W ++ splitSegs q from by
    show splitSegsAux (W ++ '/' :: (q ++ ['/'])) [] = _
    rw [splitSegsAux_append_slash, splitSegsAux_concat_slash]
    rfl]
  rw [show splitSegs (W ++ ['/']) = splitSegs W from
    splitSegsAux_concat_slash W []]
  unfold normSegs
  rw [List.foldl_append]

/-- Core round-trip fact: resolving the `./`-normalized relative path from
`X` to `t` against `X` again yields exactly the resolution of `t` (this is
the heart of `processImportPaths`'s correctness). -/
theorem resolve_relative_roundtrip (cwd X t : List Char)
    (hcwd : isAbs cwd = true) :
    posixResolve cwd [X,
      (if (posixRelative cwd X t).head? = some '.' then
        posixRelative cwd X t
       else '.' :: '/' :: posixRelative cwd X t)] =
    posixResolve cwd [t] := by
  have hAc := resSegs_clean cwd [X]
  have hBc := resSegs_clean cwd [t]
  have hf : posixResolve cwd [X] = '/' :: joinSegs (resSegs cwd [X]) :=
    resolve_abs cwd [X] hcwd
  have ht : posixResolve cwd [t] = '/' :: joinSegs (resSegs cwd [t]) :=
    resolve_abs cwd [t] hcwd
  by_cases heq : posixResolve cwd [X] = posixResolve cwd [t]
  · have hrel : posixRelative cwd X t = [] := by
      unfold posixRelative
      rw [if_pos heq]
    rw [hrel, if_neg (by simp)]
    rw [resolve_abs cwd [X, ('.' :: '/' :: [])] hcwd, ← heq, hf]
    rw [resSegs_pair cwd X ('.' :: '/' :: []) hcwd (by simp) (by decide)]
    rw [show splitSegs ('.' :: '/' :: []) = [['.']] from by decide]
    rw [show List.foldl (normStep false) (resSegs cwd [X]) [['.']] =
        normStep false (resSegs cwd [X]) ['.'] from rfl, normStep_dot]
  · have hAB : resSegs cwd [X] ≠ resSegs cwd [t] := fun h =>
      heq (by rw [hf, ht, h])
    have hsA : splitSegs ('/' :: joinSegs (resSegs cwd [X])) =
        resSegs cwd [X] := by
      show splitSegsAux ('/' :: joinSegs (resSegs cwd [X])) [] = _
      rw [splitSegsAux_slash_nil]
      exact splitSegs_joinSegs _ (cleanSegs_wf hAc)
    have hsB : splitSegs ('/' :: joinSegs (resSegs cwd [t])) =
        resSegs cwd [t] := by
      show splitSegsAux ('/' :: joinSegs (resSegs cwd [t])) [] = _
      rw [splitSegsAux_slash_nil]
      exact splitSegs_joinSegs _ (cleanSegs_wf hBc)
    have hrel : posixRelative cwd X t =
        joinSegs (List.replicate
            (List.length (resSegs cwd [X]) -
              commonLen (resSegs cwd [X]) (resSegs cwd [t])) ['.', '.'] ++
          (resSegs cwd [t]).drop
            (commonLen (resSegs cwd [X]) (resSegs cwd [t]))) := by
      unfold posixRelative
      rw [if_neg heq, hf, ht, hsA, hsB]
    have hwfr : wfSegs (List.replicate
        (List.length (resSegs cwd [X]) -
          commonLen (resSegs cwd [X]) (resSegs cwd [t])) ['.', '.'] ++
        (resSegs cwd [t]).drop
          (commonLen (resSegs cwd [X]) (resSegs cwd [t]))) := by
      intro s hs
      rcases List.mem_append.mp hs with h | h
      · rw [List.eq_of_mem_replicate h]
        exact ⟨by simp, by decide⟩
      · have := hBc s (List.drop_subset _ _ h)
        exact ⟨this.1, this.2.1⟩
    have hne : List.replicate
        (List.length (resSegs cwd [X]) -
          commonLen (resSegs cwd [X]) (resSegs cwd [t])) ['.', '.'] ++
        (resSegs cwd [t]).drop
          (commonLen (resSegs cwd [X]) (resSegs cwd [t])) ≠ [] := by
      intro hcontra
      rcases List.append_eq_nil.mp hcontra with ⟨h1, h2⟩
      have hk1 : List.length (resSegs cwd [X]) -
          commonLen (resSegs cwd [X]) (resSegs cwd [t]) = 0 := by
        simpa using congrArg List.length h1
      have hk2 : (resSegs cwd [t]).length ≤
          commonLen (resSegs cwd [X]) (resSegs cwd [t]) := by
        have := congrArg List.length h2
        simp at this
        omega
      have hk3 := commonLen_le_left (resSegs cwd [X]) (resSegs cwd [t])
      exact hAB (commonLen_full (by omega) (by omega))
    have hsplit_rel : splitSegs (posixRelative cwd X t) =
        List.replicate (List.length (resSegs cwd [X]) -
          commonLen (resSegs cwd [X]) (resSegs cwd [t])) ['.', '.'] ++
        (resSegs cwd [t]).drop
          (commonLen (resSegs cwd [X]) (resSegs cwd [t])) := by
      rw [hrel]
      exact splitSegs_joinSegs _ hwfr
    have hfold : List.foldl (normStep false) (resSegs cwd [X])
        (List.replicate (List.length (resSegs cwd [X]) -
          commonLen (resSegs cwd [X]) (resSegs cwd [t])) ['.', '.'] ++
        (resSegs cwd [t]).drop
          (commonLen (resSegs cwd [X]) (resSegs cwd [t]))) =
        resSegs cwd [t] := by
      rw [List.foldl_append, foldl_normStep_dotdot _ _ hAc]
      have hk3 := commonLen_le_left (resSegs cwd [X]) (resSegs cwd [t])
      rw [show List.length (resSegs cwd [X]) -
          (List.length (resSegs cwd [X]) -
            commonLen (resSegs cwd [X]) (resSegs cwd [t])) =
          commonLen (resSegs cwd [X]) (resSegs cwd [t]) from by omega]
      rw [foldl_normStep_push false _ _
        (fun s hs => ⟨(hBc s (List.drop_subset _ _ hs)).2.2.1,
          (hBc s (List.drop_subset _ _ hs)).2.2.2⟩)]
      rw [commonLen_take]
      exact List.take_append_drop _ _
    by_cases hh : (posixRelative cwd X t).head? = some '.'
    · rw [if_pos hh]
      have hq_ne : posixRelative cwd X t ≠ [] := by
        intro hc
        rw [hc] at hh
        simp at hh
      have hq_abs : isAbs (posixRelative cwd X t) = false := by
        unfold isAbs
        rw [hh]
        rfl
      rw [resolve_abs cwd [X, posixRelative cwd X t] hcwd, ht,
        resSegs_pair cwd X _ hcwd hq_ne hq_abs, hsplit_rel, hfold]
    · rw [if_neg hh]
      have hq_abs : isAbs ('.' :: '/' :: posixRelative cwd X t) = false :=
        rfl
      rw [resolve_abs cwd [X, '.' :: '/' :: posixRelative cwd X t] hcwd,
        ht, resSegs_pair cwd X _ hcwd (by simp) hq_abs]
      rw [show splitSegs ('.' :: '/' :: posixRelative cwd X t) =
          ['.'] :: splitSegs (posixRelative cwd X t) from by
        show splitSegsAux ('.' :: '/' :: posixRelative cwd X t) [] = _
        rw [splitSegsAux_other '.' _ [] (by decide),
          splitSegsAux_slash _ ['.'] (by simp)]
        rfl]
      rw [List.foldl_cons, normStep_dot, hsplit_rel, hfold]

/-! ### Claim C1: resolution-preserving import rewriting -/

/-- C1: each relative import specifier rewritten by `processImportPaths`'s
replacer resolves from the destination file's directory to the same
absolute file as the original specifier resolves to from the source file's
directory; every non-relative specifier's match is returned byte-identical
(the process working directory, which Node's `path.resolve` falls back to,
is any absolute path). -/
theorem processImportPaths_resolution (cwd sp dp p : List Char)
    (q1 q2 : Char) (hcwd : isAbs cwd = true) :
    (p.head? = some '.' →
      posixResolve cwd [posixDirname dp, normalizedPathOf cwd sp dp p] =
        posixResolve cwd [posixDirname sp, p]) ∧
    (p.head? ≠ some '.' →
      replaceImport cwd sp dp q1 p q2 =
        "from ".data ++ q1 :: (p ++ [q2])) := by
  constructor
  · intro _
    have h := resolve_relative_roundtrip cwd (posixDirname dp)
      (posixResolve cwd [posixDirname sp, p]) hcwd
    rw [resolve_idem cwd [posixDirname sp, p] hcwd] at h
    exact h
  · intro hp
    unfold replaceImport
    rw [if_neg hp]

/-- Witness for C1: a concrete relative specifier re-resolves to the same
absolute path, and a package specifier is kept byte-identical. -/
theorem processImportPaths_resolution_witness :
    posixResolve "/".data [posixDirname "/w/src/client.tsx".data,
      normalizedPathOf "/".data "/w/src/.tnf/client.tsx".data
        "/w/src/client.tsx".data "./a".data] =
    posixResolve "/".data [posixDirname "/w/src/.tnf/client.tsx".data,
      "./a".data] ∧
    replaceImport "/".data "/w/src/.tnf/client.tsx".data
      "/w/src/client.tsx".data '"' "react".data '"' =
    "from \"react\"".data := by
  constructor
  · exact (processImportPaths_resolution "/".data
      "/w/src/.tnf/client.tsx".data "/w/src/client.tsx".data "./a".data
      '"' '"' (by decide)).1 (by decide)
  · exact (processImportPaths_resolution "/".data
      "/w/src/.tnf/client.tsx".data "/w/src/client.tsx".data "react".data
      '"' '"' (by decide)).2 (by decide)

/-! ### Equation lemmas for the import scanner -/

theorem findSpanQ_inv : ∀ (l span : List Char) (q : Char)
    (rest : List Char), findSpanQ l = some (span, q, rest) →
    l = span ++ q :: rest ∧ quoteCh q = true ∧
      (∀ c ∈ span, quoteCh c = false) := by
  intro l
  induction l with
  | nil => intro span q rest h; simp [findSpanQ] at h
  | cons c cs ih =>
      intro span q rest h
      simp only [findSpanQ] at h
      by_cases hc : quoteCh c = true
      · rw [if_pos hc] at h
        have hp := Option.some.inj h
        have e1 : ([] : List Char) = span := congrArg Prod.fst hp
        have e2 : c = q := congrArg (fun z => z.2.1) hp
        have e3 : cs = rest := congrArg (fun z => z.2.2) hp
        subst e1; subst e2; subst e3
        exact ⟨rfl, hc, fun x hx => absurd hx (List.not_mem_nil x)⟩
      · rw [if_neg hc] at h
        cases hf : findSpanQ cs with
        | none => rw [hf] at h; simp at h
        | some pr =>
            obtain ⟨s1, s2, s3⟩ := pr
            rw [hf] at h
            simp only [Option.map_some'] at h
            have hp := Option.some.inj h
            have e1 : c :: s1 = span := congrArg Prod.fst hp
            have e2 : s2 = q := congrArg (fun z => z.2.1) hp
            have e3 : s3 = rest := congrArg (fun z => z.2.2) hp
            subst e1; subst e2; subst e3
            obtain ⟨f1, f2, f3⟩ := ih s1 s2 s3 hf
            refine ⟨by rw [List.cons_append, f1], f2, ?_⟩
            intro x hx
            rcases List.mem_cons.mp hx with hx | hx
            · subst hx
              simpa using hc
            · exact f3 x hx

theorem findSpanQ_length (l span : List Char) (q : Char)
    (rest : List Char) (h : findSpanQ l = some (span, q, rest)) :
    l.length = span.length + 1 + rest.length := by
  obtain ⟨hl, _, _⟩ := findSpanQ_inv l span q rest h
  rw [hl]
  simp
  omega

theorem findSpanQ_of_append (v : List Char) (q : Char) (z : List Char)
    (hv : ∀ c ∈ v, quoteCh c = false) (hq : quoteCh q = true) :
    findSpanQ (v ++ q :: z) = some (v, q, z) := by
  induction v with
  | nil => simp [findSpanQ, hq]
  | cons c cs ih =>
      have hc : quoteCh c = false := hv c (List.mem_cons_self c cs)
      have hcs : ∀ x ∈ cs, quoteCh x = false :=
        fun x hx => hv x (List.mem_cons_of_mem c hx)
      simp only [List.cons_append, findSpanQ, hc, Bool.false_eq_true,
        if_false, List.append_eq, ih hcs, Option.map_some']

theorem findSpanQ_of_noquote (l : List Char)
    (h : ∀ c ∈ l, quoteCh c = false) : findSpanQ l = none := by
  induction l with
  | nil => rfl
  | cons c cs ih =>
      have hc : quoteCh c = false := h c (List.mem_cons_self c cs)
      have hcs : ∀ x ∈ cs, quoteCh x = false :=
        fun x hx => h x (List.mem_cons_of_mem c hx)
      simp only [findSpanQ, hc, Bool.false_eq_true, if_false, ih hcs,
        Option.map_none']

theorem tryFromMatch_inv (l : List Char) (q1 : Char) (span : List Char)
    (q2 : Char) (rest' : List Char)
    (h : tryFromMatch l = some (q1, span, q2, rest')) :
    l = "from ".data ++ q1 :: (span ++ q2 :: rest') ∧
      quoteCh q1 = true ∧ quoteCh q2 = true ∧ span ≠ [] ∧
      (∀ c ∈ span, quoteCh c = false) := by
  obtain ⟨t, ht⟩ := tryFromMatch_shape l _ h
  subst ht
  cases t with
  | nil => simp [tryFromMatch] at h
  | cons q1' rest =>
      have hred : (if ([ 'f', 'r', 'o', 'm', ' ' ] : List Char) =
            "from ".data ∧ quoteCh q1' = true then
          (match findSpanQ rest with
           | some (span, q2, rest') =>
               if span = [] then none else some (q1', span, q2, rest')
           | none => none)
          else none) = some (q1, span, q2, rest') := h
      by_cases hq : quoteCh q1' = true
      · rw [if_pos ⟨by decide, hq⟩] at hred
        cases hfq : findSpanQ rest with
        | none => rw [hfq] at hred; simp at hred
        | some pr =>
            obtain ⟨sp, qq, rr⟩ := pr
            rw [hfq] at hred
            have hred2 : (if sp = [] then none
                else some (q1', sp, qq, rr)) =
                some (q1, span, q2, rest') := hred
            by_cases hsp : sp = []
            · rw [if_pos hsp] at hred2; simp at hred2
            · rw [if_neg hsp] at hred2
              have hp := Option.some.inj hred2
              have e1 : q1' = q1 := congrArg Prod.fst hp
              have e2 : sp = span := congrArg (fun z => z.2.1) hp
              have e3 : qq = q2 := congrArg (fun z => z.2.2.1) hp
              have e4 : rr = rest' := congrArg (fun z => z.2.2.2) hp
              subst e1; subst e2; subst e3; subst e4
              obtain ⟨f1, f2, f3⟩ := findSpanQ_inv rest sp qq rr hfq
              exact ⟨by rw [f1], hq, f2, hsp, f3⟩
      · rw [if_neg (fun hx => hq hx.2)] at hred
        simp at hred

theorem tryFromMatch_length (l : List Char) (q1 : Char) (span : List Char)
    (q2 : Char) (rest' : List Char)
    (h : tryFromMatch l = some (q1, span, q2, rest')) :
    l.length = span.length + 7 + rest'.length := by
  obtain ⟨hl, _⟩ := tryFromMatch_inv l q1 span q2 rest' h
  rw [hl]
  simp
  omega

theorem scanImports_mono (cwd sp dp : List Char) : ∀ (n m : Nat)
    (l : List Char), l.length ≤ n → l.length ≤ m →
    scanImports cwd sp dp n l = scanImports cwd sp dp m l := by
  intro n
  induction n with
  | zero =>
      intro m l hn _
      have hl : l = [] := List.length_eq_zero.mp (Nat.le_zero.mp hn)
      subst hl
      cases m <;> rfl
  | succ n ih =>
      intro m l hn hm
      cases l with
      | nil => cases m <;> rfl
      | cons c rest =>
          cases m with
          | zero => exact absurd hm (by simp)
          | succ m' =>
              cases hk : tryFromMatch (c :: rest) with
              | some x =>
                  obtain ⟨q1, span, q2, rest'⟩ := x
                  have hlen := tryFromMatch_length _ _ _ _ _ hk
                  simp only [List.length_cons] at hlen hn hm
                  have h1 : rest'.length ≤ n := by omega
                  have h2 : rest'.length ≤ m' := by omega
                  simp only [scanImports, hk, ih m' rest' h1 h2]
              | none =>
                  have h1 : rest.length ≤ n := by simp at hn; omega
                  have h2 : rest.length ≤ m' := by simp at hm; omega
                  simp only [scanImports, hk, ih m' rest h1 h2]

theorem pIP_match (cwd sp dp : List Char) (c : Char) (rest : List Char)
    (q1 : Char) (span : List Char) (q2 : Char) (rest' : List Char)
    (h : tryFromMatch (c :: rest) = some (q1, span, q2, rest')) :
    processImportPaths cwd (c :: rest) sp dp =
      replaceImport cwd sp dp q1 span q2 ++
        processImportPaths cwd rest' sp dp := by
  have hlen := tryFromMatch_length _ _ _ _ _ h
  unfold processImportPaths
  simp only [List.length_cons, scanImports, h]
  rw [scanImports_mono cwd sp dp rest.length rest'.length rest'
    (by simp at hlen; omega) (Nat.le_refl _)]

theorem pIP_nomatch (cwd sp dp : List Char) (c : Char) (rest : List Char)
    (h : tryFromMatch (c :: rest) = none) :
    processImportPaths cwd (c :: rest) sp dp =
      c :: processImportPaths cwd rest sp dp := by
  unfold processImportPaths
  simp only [List.length_cons, scanImports, h]

/-- **C10**: the rewriter touches from-clause matches only.  Any content
segment within which no `from '...'`/`from "..."` match begins — bare
side-effect imports and dynamic `import('./x')` calls included, however
relative their specifiers — passes through byte-identical, and rewriting
continues independently on the remainder of the content. -/
theorem processImportPaths_only_from (cwd sp dp : List Char) :
    ∀ (pre rest : List Char),
    (∀ i, i < pre.length →
      tryFromMatch (List.drop i (pre ++ rest)) = none) →
    processImportPaths cwd (pre ++ rest) sp dp =
      pre ++ processImportPaths cwd rest sp dp := by
  intro pre
  induction pre with
  | nil => intro rest _; rfl
  | cons c pre' ih =>
      intro rest h
      have h0 : tryFromMatch (c :: (pre' ++ rest)) = none := by
        have := h 0 (by simp)
        simpa using this
      have htail : ∀ i, i < pre'.length →
          tryFromMatch (List.drop i (pre' ++ rest)) = none := by
        intro i hi
        have := h (i + 1) (by simp only [List.length_cons]; omega)
        simpa using this
      rw [List.cons_append, pIP_nomatch _ _ _ _ _ h0, ih rest htail,
        List.cons_append]

set_option maxRecDepth 4000 in
/-- Witness for `processImportPaths_only_from`: in a content string whose
prefix holds a bare relative side-effect import and a dynamic relative
one, and whose remainder holds a from-clause, the prefix survives
byte-identical while the from-clause is rewritten (the third conjunct
shows the rewrite really changes the remainder). -/
theorem processImportPaths_only_from_witness :
    (∀ i, i < ("import './styles.css';\nimport('./x');\n".data).length →
      tryFromMatch (List.drop i
        ("import './styles.css';\nimport('./x');\n".data ++
          "from './foo'".data)) = none) ∧
    processImportPaths "/w".data
        ("import './styles.css';\nimport('./x');\n".data ++
          "from './foo'".data)
        "/w/src/.tnf/client.tsx".data "/w/src/client.tsx".data =
      "import './styles.css';\nimport('./x');\n".data ++
        processImportPaths "/w".data "from './foo'".data
          "/w/src/.tnf/client.tsx".data "/w/src/client.tsx".data ∧
    processImportPaths "/w".data "from './foo'".data
        "/w/src/.tnf/client.tsx".data "/w/src/client.tsx".data ≠
      "from './foo'".data :=
  ⟨by decide,
    processImportPaths_only_from "/w".data
      "/w/src/.tnf/client.tsx".data "/w/src/client.tsx".data
      "import './styles.css';\nimport('./x');\n".data
      "from './foo'".data (by decide),
    by decide⟩

/-! ### Quote-freeness of the path computations -/

/-- No quote character occurs in the list. -/
def nq (l : List Char) : Prop := ∀ c ∈ l, quoteCh c = false

/-- No quote character occurs in any segment. -/
def nqSegs (L : List (List Char)) : Prop := ∀ s ∈ L, nq s

theorem nq_nil : nq [] := fun c hc => absurd hc (List.not_mem_nil c)

theorem nq_append {a b : List Char} (ha : nq a) (hb : nq b) :
    nq (a ++ b) := by
  intro c hc
  rcases List.mem_append.mp hc with h | h
  · exact ha c h
  · exact hb c h

theorem nq_cons {c : Char} {l : List Char} (hc : quoteCh c = false)
    (hl : nq l) : nq (c :: l) := by
  intro x hx
  rcases List.mem_cons.mp hx with h | h
  · subst h; exact hc
  · exact hl x h

theorem splitSegsAux_nq : ∀ (l acc : List Char), nq l → nq acc →
    nqSegs (splitSegsAux l acc) := by
  intro l
  induction l with
  | nil =>
      intro acc _ hacc
      unfold splitSegsAux
      by_cases hne : acc = []
      · rw [if_pos hne]
        intro s hs
        simp at hs
      · rw [if_neg hne]
        intro s hs
        rw [List.mem_singleton] at hs
        subst hs
        intro x hx
        exact hacc x (List.mem_reverse.mp hx)
  | cons c rest ih =>
      intro acc hl hacc
      have hc : quoteCh c = false := hl c (List.mem_cons_self c rest)
      have hrest : nq rest := fun x hx => hl x (List.mem_cons_of_mem c hx)
      unfold splitSegsAux
      by_cases hcs : c = '/'
      · rw [if_pos hcs]
        by_cases hne : acc = []
        · rw [if_pos hne]
          exact ih [] hrest nq_nil
        · rw [if_neg hne]
          intro s hs
          rcases List.mem_cons.mp hs with h | h
          · subst h
            intro x hx
            exact hacc x (List.mem_reverse.mp hx)
          · exact ih [] hrest nq_nil s h
      · rw [if_neg hcs]
        exact ih (c :: acc) hrest (nq_cons hc hacc)

theorem joinSegs_nq : ∀ (L : List (List Char)), nqSegs L →
    nq (joinSegs L) := by
  intro L
  induction L with
  | nil => intro _; exact nq_nil
  | cons s rest ih =>
      intro hL
      have hs := hL s (List.mem_cons_self s rest)
      have hrest : nqSegs rest := fun x hx => hL x (List.mem_cons_of_mem s hx)
      cases rest with
      | nil => exact hs
      | cons t ts =>
          rw [joinSegs_cons s (t :: ts) (by simp)]
          exact nq_append hs (nq_cons (by decide) (ih hrest))

theorem mem_normStep {ab : Bool} {acc : List (List Char)}
    {seg x : List Char} (h : x ∈ normStep ab acc seg) :
    x ∈ acc ∨ x = seg := by
  unfold normStep at h
  by_cases h1 : seg = ['.']
  · rw [if_pos h1] at h; exact .inl h
  · rw [if_neg h1] at h
    by_cases h2 : seg = ['.', '.']
    · rw [if_pos h2] at h
      by_cases h3 : acc ≠ [] ∧ acc.getLast? ≠ some ['.', '.']
      · rw [if_pos h3] at h
        exact .inl (List.dropLast_subset acc h)
      · rw [if_neg h3] at h
        by_cases h4 : ab = true
        · rw [if_pos h4] at h
          rcases List.mem_append.mp h with h | h
          · exact .inl h
          · exact .inr (List.mem_singleton.mp h)
        · rw [if_neg h4] at h
          exact .inl h
    · rw [if_neg h2] at h
      rcases List.mem_append.mp h with h | h
      · exact .inl h
      · exact .inr (List.mem_singleton.mp h)

theorem foldl_normStep_nq (ab : Bool) : ∀ (L acc : List (List Char)),
    nqSegs L → nqSegs acc →
    nqSegs (List.foldl (normStep ab) acc L) := by
  intro L
  induction L with
  | nil => intro acc _ hacc; simpa using hacc
  | cons s rest ih =>
      intro acc hL hacc
      rw [List.foldl_cons]
      refine ih (normStep ab acc s)
        (fun x hx => hL x (List.mem_cons_of_mem s hx)) ?_
      intro x hx
      rcases mem_normStep hx with h | h
      · exact hacc x h
      · rw [h]
        exact hL s (List.mem_cons_self s rest)

theorem resolveJoined_nq (cwd : List Char) (args : List (List Char))
    (hcwd : nq cwd) (hargs : ∀ a ∈ args, nq a) :
    nq (resolveJoined cwd args).1 := by
  have hfold : ∀ (as : List (List Char)), (∀ a ∈ as, nq a) →
      nq (List.foldr resolveStep (([] : List Char), false) as).1 := by
    intro as
    induction as with
    | nil => intro _; exact nq_nil
    | cons a rest ih =>
        intro has
        have ha := has a (List.mem_cons_self a rest)
        have hrest := fun x hx => has x (List.mem_cons_of_mem a hx)
        rw [List.foldr_cons]
        by_cases h1 : (List.foldr resolveStep ([], false) rest).2 = true
        · rw [resolveStep_skip a _ h1]
          exact ih hrest
        · have h1' : (List.foldr resolveStep ([], false) rest).2 = false :=
            by simpa using h1
          by_cases h2 : a = []
          · rw [h2, resolveStep_nil]
            exact ih hrest
          · rw [resolveStep_go a _ h1' h2]
            exact nq_append ha (nq_cons (by decide) (ih hrest))
  unfold resolveJoined
  dsimp only
  by_cases h1 : (args.foldr resolveStep ([], false)).2 = true
  · rw [if_pos h1]
    exact hfold args hargs
  · rw [if_neg h1]
    by_cases h2 : cwd = []
    · rw [if_pos h2]
      exact hfold args hargs
    · rw [if_neg h2]
      exact nq_append hcwd (nq_cons (by decide) (hfold args hargs))

theorem posixResolve_nq (cwd : List Char) (args : List (List Char))
    (hcwd : nq cwd) (hargs : ∀ a ∈ args, nq a) :
    nq (posixResolve cwd args) := by
  have hsegs : nqSegs (normSegs (!(resolveJoined cwd args).2)
      (splitSegs (resolveJoined cwd args).1)) :=
    foldl_normStep_nq _ _ []
      (splitSegsAux_nq _ [] (resolveJoined_nq cwd args hcwd hargs) nq_nil)
      (fun s hs => absurd hs (List.not_mem_nil s))
  have hdot : nq ['.'] := by
    intro c hc
    rw [List.mem_singleton] at hc
    subst hc
    decide
  unfold posixResolve
  dsimp only
  by_cases h2 : (resolveJoined cwd args).2 = true
  · rw [if_pos h2]
    exact nq_cons (by decide) (joinSegs_nq _ hsegs)
  · rw [if_neg h2]
    by_cases h3 : normSegs (!(resolveJoined cwd args).2)
        (splitSegs (resolveJoined cwd args).1) = []
    · rw [if_pos h3]
      exact hdot
    · rw [if_neg h3]
      exact joinSegs_nq _ hsegs

theorem nq_slashes : nq ['/'] ∧ nq ['/', '/'] ∧ nq ['.'] := by
  refine ⟨?_, ?_, ?_⟩ <;>
    · intro c hc
      rcases List.mem_cons.mp hc with h | h
      · subst h; decide
      · first
        | exact absurd h (List.not_mem_nil c)
        | (rcases List.mem_cons.mp h with h2 | h2
           · subst h2; decide
           · exact absurd h2 (List.not_mem_nil c))

theorem posixDirname_nq (p : List Char) (hp : nq p) :
    nq (posixDirname p) := by
  unfold posixDirname
  cases p with
  | nil => exact nq_slashes.2.2
  | cons c0 body =>
      dsimp only
      by_cases h1 : ((body.reverse.dropWhile (fun x => x = '/')).dropWhile
          (fun x => x ≠ '/')) = []
      · rw [if_pos h1]
        by_cases h2 : c0 = '/'
        · rw [if_pos h2]
          exact nq_slashes.1
        · rw [if_neg h2]
          exact nq_slashes.2.2
      · rw [if_neg h1]
        by_cases h2 : c0 = '/' ∧ ((body.reverse.dropWhile
            (fun x => x = '/')).dropWhile (fun x => x ≠ '/')).length = 1
        · rw [if_pos h2]
          exact nq_slashes.2.1
        · rw [if_neg h2]
          intro x hx
          exact hp x (List.take_subset _ _ hx)

theorem posixRelative_nq (cwd a b : List Char) (hcwd : nq cwd)
    (_ha : nq a) (hb : nq b) : nq (posixRelative cwd a b) := by
  unfold posixRelative
  dsimp only
  by_cases heq : posixResolve cwd [a] = posixResolve cwd [b]
  · rw [if_pos heq]
    exact nq_nil
  · rw [if_neg heq]
    refine joinSegs_nq _ ?_
    intro s hs
    rcases List.mem_append.mp hs with h | h
    · rw [List.eq_of_mem_replicate h]
      intro c hc
      rcases List.mem_cons.mp hc with h2 | h2
      · subst h2; decide
      · rw [List.mem_singleton] at h2; subst h2; decide
    · have hres : nq (posixResolve cwd [b]) :=
        posixResolve_nq cwd [b] hcwd (by
          intro x hx
          rw [List.mem_singleton] at hx
          subst hx
          exact hb)
      exact splitSegsAux_nq _ [] hres nq_nil s (List.drop_subset _ _ h)

theorem normalizedPathOf_nq (cwd sp dp span : List Char) (hcwd : nq cwd)
    (hsp : nq sp) (hdp : nq dp) (hspan : nq span) :
    nq (normalizedPathOf cwd sp dp span) := by
  have hrel : nq (posixRelative cwd (posixDirname dp)
      (posixResolve cwd [posixDirname sp, span])) :=
    posixRelative_nq cwd _ _ hcwd (posixDirname_nq dp hdp)
      (posixResolve_nq cwd _ hcwd (by
        intro x hx
        rcases List.mem_cons.mp hx with h | h
        · subst h; exact posixDirname_nq sp hsp
        · rw [List.mem_singleton] at h; subst h; exact hspan))
  unfold normalizedPathOf
  dsimp only
  split
  · exact hrel
  · exact nq_cons (by decide) (nq_cons (by decide) hrel)

theorem normalizedPathOf_head (cwd sp dp span : List Char) :
    (normalizedPathOf cwd sp dp span).head? = some '.' := by
  unfold normalizedPathOf
  dsimp only
  split
  · next hh => exact hh
  · rfl

theorem normalizedPathOf_ne_nil (cwd sp dp span : List Char) :
    normalizedPathOf cwd sp dp span ≠ [] := by
  intro h
  have := normalizedPathOf_head cwd sp dp span
  rw [h] at this
  simp at this

/-! ### Scanning a scanned output: auxiliary facts -/

theorem quote_ne_f {q : Char} (hq : quoteCh q = true) : q ≠ 'f' := by
  have : q = squote ∨ q = '"' := by
    unfold quoteCh at hq
    simpa using hq
  rcases this with h | h <;> subst h <;> decide

theorem tryFromMatch_build (q1 : Char) (span : List Char) (q2 : Char)
    (tail : List Char) (hq1 : quoteCh q1 = true) (hq2 : quoteCh q2 = true)
    (hsp : span ≠ []) (hnqs : ∀ c ∈ span, quoteCh c = false) :
    tryFromMatch ("from ".data ++ q1 :: (span ++ q2 :: tail)) =
      some (q1, span, q2, tail) := by
  have hred : tryFromMatch ("from ".data ++ q1 :: (span ++ q2 :: tail)) =
      (if ([ 'f', 'r', 'o', 'm', ' ' ] : List Char) = "from ".data ∧
          quoteCh q1 = true then
        (match findSpanQ (span ++ q2 :: tail) with
         | some (sp, qq, rr) =>
             if sp = [] then none else some (q1, sp, qq, rr)
         | none => none)
        else none) := rfl
  rw [hred, if_pos ⟨by decide, hq1⟩,
    findSpanQ_of_append span q2 tail hnqs hq2]
  rw [show (match (some (span, q2, tail) :
        Option (List Char × Char × List Char)) with
      | some (sp, qq, rr) =>
          if sp = [] then none else some (q1, sp, qq, rr)
      | none => none) =
      (if span = [] then none else some (q1, span, q2, tail)) from rfl,
    if_neg hsp]

theorem pIP_from (cwd sp dp : List Char) (q1 : Char) (span : List Char)
    (q2 : Char) (tail : List Char) (hq1 : quoteCh q1 = true)
    (hq2 : quoteCh q2 = true) (hsp : span ≠ [])
    (hnqs : ∀ c ∈ span, quoteCh c = false) :
    processImportPaths cwd
        ('f' :: 'r' :: 'o' :: 'm' :: ' ' :: q1 :: (span ++ q2 :: tail))
        sp dp =
      replaceImport cwd sp dp q1 span q2 ++
        processImportPaths cwd tail sp dp :=
  pIP_match cwd sp dp 'f' _ _ _ _ _
    (tryFromMatch_build q1 span q2 tail hq1 hq2 hsp hnqs)

theorem pIP_cons_ne_f (cwd sp dp : List Char) (c : Char)
    (rest : List Char) (hc : c ≠ 'f') :
    processImportPaths cwd (c :: rest) sp dp =
      c :: processImportPaths cwd rest sp dp := by
  refine pIP_nomatch cwd sp dp c rest ?_
  cases hm : tryFromMatch (c :: rest) with
  | none => rfl
  | some x =>
      obtain ⟨q1, span, q2, rest'⟩ := x
      obtain ⟨hshape, _⟩ := tryFromMatch_inv _ _ _ _ _ hm
      have : c = 'f' := by
        have := congrArg (fun l => l.head?) hshape
        simpa using this
      exact absurd this hc

theorem pIP_get_low (cwd sp dp : List Char) : ∀ (n : Nat) (l : List Char),
    l.length ≤ n → ∀ i, i ≤ 4 →
    (processImportPaths cwd l sp dp).get? i = l.get? i := by
  intro n
  induction n with
  | zero =>
      intro l hl i _
      have : l = [] := List.length_eq_zero.mp (Nat.le_zero.mp hl)
      subst this
      rfl
  | succ n ih =>
      intro l hl i hi
      cases l with
      | nil => rfl
      | cons c rest =>
          cases hm : tryFromMatch (c :: rest) with
          | some x =>
              obtain ⟨q1, span, q2, rest'⟩ := x
              rw [pIP_match _ _ _ _ _ _ _ _ _ hm]
              obtain ⟨hshape, hq1, hq2, hspne, hspnq⟩ :=
                tryFromMatch_inv _ _ _ _ _ hm
              have hrlen : 4 < (replaceImport cwd sp dp q1 span q2).length
                  := by
                unfold replaceImport
                split <;> simp
              rw [List.get?_append (by omega), hshape,
                List.get?_append (by simp; omega)]
              unfold replaceImport
              split
              · rw [List.get?_append (by simp; omega)]
              · rw [List.get?_append (by simp; omega)]
          | none =>
              rw [pIP_nomatch _ _ _ _ _ hm]
              cases i with
              | zero => rfl
              | succ j =>
                  simp only [List.get?_cons_succ]
                  exact ih rest (by simp at hl; omega) j (by omega)

/-- Number of quote characters in a list. -/
def countQ (l : List Char) : Nat := (l.filter quoteCh).length

theorem tryFromMatch_two_quotes (l : List Char) (q1 : Char)
    (span : List Char) (q2 : Char) (rest' : List Char)
    (h : tryFromMatch l = some (q1, span, q2, rest')) : 2 ≤ countQ l := by
  obtain ⟨hshape, hq1, hq2, _, _⟩ := tryFromMatch_inv _ _ _ _ _ h
  rw [hshape, show "from ".data = ['f', 'r', 'o', 'm', ' '] from rfl]
  unfold countQ
  simp only [List.filter_append, List.filter_cons,
    show quoteCh 'f' = false from by decide,
    show quoteCh 'r' = false from by decide,
    show quoteCh 'o' = false from by decide,
    show quoteCh 'm' = false from by decide,
    show quoteCh ' ' = false from by decide, hq1, hq2]
  simp only [Bool.false_eq_true, if_false, if_true, List.nil_append,
    List.length_cons, List.length_append]
  omega

theorem pIP_lowquote (cwd sp dp : List Char) : ∀ (n : Nat) (l : List Char),
    l.length ≤ n → countQ l ≤ 1 →
    processImportPaths cwd l sp dp = l := by
  intro n
  induction n with
  | zero =>
      intro l hl _
      have : l = [] := List.length_eq_zero.mp (Nat.le_zero.mp hl)
      subst this
      rfl
  | succ n ih =>
      intro l hl hq
      cases l with
      | nil => rfl
      | cons c rest =>
          cases hm : tryFromMatch (c :: rest) with
          | some x =>
              obtain ⟨q1, span, q2, rest'⟩ := x
              have h2 := tryFromMatch_two_quotes _ _ _ _ _ hm
              exact absurd (le_trans h2 hq) (by decide)
          | none =>
              rw [pIP_nomatch _ _ _ _ _ hm]
              have hqr : countQ rest ≤ 1 := by
                unfold countQ at hq ⊢
                rw [List.filter_cons] at hq
                by_cases hc : quoteCh c = true
                · rw [if_pos hc, List.length_cons] at hq
                  omega
                · rw [if_neg hc] at hq
                  exact hq
              rw [ih rest (by simp at hl; omega) hqr]

theorem findSpanQ_none_nq (l : List Char) (h : findSpanQ l = none) :
    nq l := by
  induction l with
  | nil => exact nq_nil
  | cons c cs ih =>
      simp only [findSpanQ] at h
      by_cases hc : quoteCh c = true
      · rw [if_pos hc] at h; simp at h
      · rw [if_neg hc] at h
        cases hf : findSpanQ cs with
        | some pr => rw [hf] at h; simp at h
        | none =>
            exact nq_cons (by simpa using hc) (ih hf)

theorem no_new_match (cwd sp dp : List Char) (c : Char) (rest : List Char)
    (hno : tryFromMatch (c :: rest) = none) :
    tryFromMatch (c :: processImportPaths cwd rest sp dp) = none := by
  cases hm : tryFromMatch (c :: processImportPaths cwd rest sp dp) with
  | none => rfl
  | some x =>
      exfalso
      obtain ⟨q1, span, q2, rest'⟩ := x
      obtain ⟨hshape, hq1, hq2, hspne, hspnq⟩ :=
        tryFromMatch_inv _ _ _ _ _ hm
      have hc : c = 'f' := by
        have := congrArg (fun l => l.head?) hshape
        simpa using this
      subst hc
      have hP : processImportPaths cwd rest sp dp =
          'r' :: 'o' :: 'm' :: ' ' :: q1 :: (span ++ q2 :: rest') := by
        have := congrArg List.tail hshape
        simpa using this
      have hg : ∀ i, i ≤ 4 → rest.get? i =
          ('r' :: 'o' :: 'm' :: ' ' :: q1 ::
            (span ++ q2 :: rest')).get? i := by
        intro i hi
        rw [← hP, pIP_get_low cwd sp dp rest.length rest (Nat.le_refl _)
          i hi]
      cases rest with
      | nil => exact absurd (hg 0 (by omega)) (by simp)
      | cons r0 t0 =>
          have hr0 : r0 = 'r' := by simpa using hg 0 (by omega)
          subst hr0
          cases t0 with
          | nil => exact absurd (hg 1 (by omega)) (by simp)
          | cons r1 t1 =>
              have hr1 : r1 = 'o' := by simpa using hg 1 (by omega)
              subst hr1
              cases t1 with
              | nil => exact absurd (hg 2 (by omega)) (by simp)
              | cons r2 t2 =>
                  have hr2 : r2 = 'm' := by simpa using hg 2 (by omega)
                  subst hr2
                  cases t2 with
                  | nil => exact absurd (hg 3 (by omega)) (by simp)
                  | cons r3 t3 =>
                      have hr3 : r3 = ' ' := by simpa using hg 3 (by omega)
                      subst hr3
                      cases t3 with
                      | nil => exact absurd (hg 4 (by omega)) (by simp)
                      | cons r4 l6 =>
                          have hr4 : r4 = q1 := by
                            simpa using hg 4 (by omega)
                          subst hr4
                          have hno' : (if ([ 'f', 'r', 'o', 'm', ' ' ] :
                                List Char) = "from ".data ∧
                                quoteCh r4 = true then
                              (match findSpanQ l6 with
                               | some (sp, qq, rr) =>
                                   if sp = [] then none
                                   else some (r4, sp, qq, rr)
                               | none => none)
                              else none) = none := hno
                          rw [if_pos ⟨by decide, hq1⟩] at hno'
                          cases hfq : findSpanQ l6 with
                          | some pr =>
                              obtain ⟨sp, qq, rr⟩ := pr
                              rw [hfq] at hno'
                              have hno'' : (if sp = [] then none
                                  else some (r4, sp, qq, rr)) =
                                  (none : Option (Char × List Char × Char ×
                                    List Char)) := hno'
                              by_cases hsp : sp = []
                              · obtain ⟨hl6, hqq, _⟩ :=
                                  findSpanQ_inv l6 sp qq rr hfq
                                subst hsp
                                rw [List.nil_append] at hl6
                                subst hl6
                                have h6 : processImportPaths cwd
                                    ('r' :: 'o' :: 'm' :: ' ' :: r4 ::
                                      qq :: rr) sp dp =
                                    'r' :: 'o' :: 'm' :: ' ' :: r4 :: qq ::
                                      processImportPaths cwd rr sp dp := by
                                  rw [pIP_cons_ne_f _ _ _ _ _ (by decide),
                                    pIP_cons_ne_f _ _ _ _ _ (by decide),
                                    pIP_cons_ne_f _ _ _ _ _ (by decide),
                                    pIP_cons_ne_f _ _ _ _ _ (by decide),
                                    pIP_cons_ne_f _ _ _ _ _
                                      (quote_ne_f hq1),
                                    pIP_cons_ne_f _ _ _ _ _
                                      (quote_ne_f hqq)]
                                rw [h6] at hP
                                have htail := congrArg
                                  (fun l => List.get? l 5) hP
                                cases span with
                                | nil => exact hspne rfl
                                | cons s0 ss =>
                                    have hs0 : qq = s0 := by
                                      simpa using htail
                                    have := hspnq s0
                                      (List.mem_cons_self s0 ss)
                                    rw [← hs0, hqq] at this
                                    simp at this
                              · rw [if_neg hsp] at hno''
                                simp at hno''
                          | none =>
                              have hl6 : nq l6 := findSpanQ_none_nq l6 hfq
                              have hcount : countQ ('r' :: 'o' :: 'm' ::
                                  ' ' :: r4 :: l6) ≤ 1 := by
                                unfold countQ
                                simp only [List.filter_cons]
                                rw [show quoteCh 'r' = false from by decide,
                                  show quoteCh 'o' = false from by decide,
                                  show quoteCh 'm' = false from by decide,
                                  show quoteCh ' ' = false from by decide,
                                  hq1]
                                rw [List.filter_eq_nil.mpr
                                  (fun a ha => by simp [hl6 a ha])]
                                simp
                              have hid := pIP_lowquote cwd sp dp _
                                ('r' :: 'o' :: 'm' :: ' ' :: r4 :: l6)
                                (Nat.le_refl _) hcount
                              rw [hid] at hm
                              rw [hno] at hm
                              simp at hm

/-! ### Idempotence of the rewriter at the destination -/

theorem normalizedPathOf_stable (cwd sp dp span : List Char)
    (hcwd : isAbs cwd = true) :
    normalizedPathOf cwd dp dp (normalizedPathOf cwd sp dp span) =
      normalizedPathOf cwd sp dp span := by
  have h1 : posixResolve cwd
      [posixDirname dp, normalizedPathOf cwd sp dp span] =
      posixResolve cwd [posixDirname sp, span] := by
    have h := resolve_relative_roundtrip cwd (posixDirname dp)
      (posixResolve cwd [posixDirname sp, span]) hcwd
    rw [resolve_idem cwd [posixDirname sp, span] hcwd] at h
    exact h
  show (if (posixRelative cwd (posixDirname dp)
      (posixResolve cwd
        [posixDirname dp, normalizedPathOf cwd sp dp span])).head? =
        some '.' then
      posixRelative cwd (posixDirname dp)
        (posixResolve cwd
          [posixDirname dp, normalizedPathOf cwd sp dp span])
    else '.' :: '/' :: posixRelative cwd (posixDirname dp)
      (posixResolve cwd
        [posixDirname dp, normalizedPathOf cwd sp dp span])) =
    normalizedPathOf cwd sp dp span
  rw [h1]
  rfl

theorem pIP_idem_aux (cwd sp dp : List Char) (hcwd : isAbs cwd = true)
    (hnqc : nq cwd) (hnqs : nq sp) (hnqd : nq dp) :
    ∀ (n : Nat) (c : List Char), c.length ≤ n →
      processImportPaths cwd (processImportPaths cwd c sp dp) dp dp =
        processImportPaths cwd c sp dp := by
  intro n
  induction n with
  | zero =>
      intro c hc
      have : c = [] := List.length_eq_zero.mp (Nat.le_zero.mp hc)
      subst this
      rfl
  | succ n ih =>
      intro c hc
      cases c with
      | nil => rfl
      | cons ch rest =>
          cases hm : tryFromMatch (ch :: rest) with
          | none =>
              rw [pIP_nomatch _ _ _ _ _ hm,
                pIP_nomatch cwd dp dp ch _
                  (no_new_match cwd sp dp ch rest hm),
                ih rest (by simp at hc; omega)]
          | some x =>
              obtain ⟨q1, span, q2, rest'⟩ := x
              obtain ⟨hshape, hq1, hq2, hspne, hspnq⟩ :=
                tryFromMatch_inv _ _ _ _ _ hm
              have hlen := tryFromMatch_length _ _ _ _ _ hm
              have hrest' : rest'.length ≤ n := by
                simp only [List.length_cons] at hc hlen
                omega
              rw [pIP_match _ _ _ _ _ _ _ _ _ hm]
              by_cases hdot : span.head? = some '.'
              · have hri : replaceImport cwd sp dp q1 span q2 =
                    "from ".data ++ squote ::
                      (normalizedPathOf cwd sp dp span ++ [squote]) := by
                  unfold replaceImport
                  rw [if_pos hdot]
                rw [hri]
                simp only [List.append_assoc, List.cons_append,
                  List.singleton_append, List.nil_append]
                rw [pIP_from cwd dp dp squote
                  (normalizedPathOf cwd sp dp span) squote
                  (processImportPaths cwd rest' sp dp) (by decide)
                  (by decide) (normalizedPathOf_ne_nil cwd sp dp span)
                  (normalizedPathOf_nq cwd sp dp span hnqc hnqs hnqd hspnq)]
                rw [ih rest' hrest']
                have hri2 : replaceImport cwd dp dp squote
                    (normalizedPathOf cwd sp dp span) squote =
                    "from ".data ++ squote ::
                      (normalizedPathOf cwd dp dp
                        (normalizedPathOf cwd sp dp span) ++ [squote]) := by
                  unfold replaceImport
                  rw [if_pos (normalizedPathOf_head cwd sp dp span)]
                rw [hri2, normalizedPathOf_stable cwd sp dp span hcwd]
                simp only [List.append_assoc, List.cons_append,
                  List.singleton_append, List.nil_append]
              · have hri : replaceImport cwd sp dp q1 span q2 =
                    "from ".data ++ q1 :: (span ++ [q2]) := by
                  unfold replaceImport
                  rw [if_neg hdot]
                rw [hri]
                simp only [List.append_assoc, List.cons_append,
                  List.singleton_append, List.nil_append]
                rw [pIP_from cwd dp dp q1 span q2
                  (processImportPaths cwd rest' sp dp) hq1 hq2 hspne hspnq]
                rw [ih rest' hrest']
                have hri2 : replaceImport cwd dp dp q1 span q2 =
                    "from ".data ++ q1 :: (span ++ [q2]) := by
                  unfold replaceImport
                  rw [if_neg hdot]
                rw [hri2]
                simp only [List.append_assoc, List.cons_append,
                  List.singleton_append, List.nil_append]

/-- **C6** (corrected). The import-path rewriter is *not* idempotent in
general — a rewritten specifier containing a quote character is truncated
by the second pass, as the concrete run in
`processImportPaths_idem_counterexample` shows.  The amended property: when
the working directory is absolute and the working directory, source path
and destination path contain no quote characters, re-rewriting an already
rewritten content string for the same destination (the string now residing
at the destination, so source = destination) returns it unchanged. -/
theorem processImportPaths_idem (cwd content sourcePath destPath :
    List Char) (hcwd : isAbs cwd = true) (hqc : nq cwd)
    (hqs : nq sourcePath) (hqd : nq destPath) :
    processImportPaths cwd
        (processImportPaths cwd content sourcePath destPath)
        destPath destPath =
      processImportPaths cwd content sourcePath destPath :=
  pIP_idem_aux cwd sourcePath destPath hcwd hqc hqs hqd
    content.length content (Nat.le_refl _)

/-- **C6** counterexample to the claim as stated: rewriting
`from './c'` when copying `/p/'q/f.ts` (a path containing a quote
character) to `/p/z/f.ts` produces `from '../'q/c'`; rewriting that result
again for the same destination yields `from '..'q/c'`, a different
string. -/
theorem processImportPaths_idem_counterexample :
    processImportPaths "/".data
        (processImportPaths "/".data "from './c'".data
          "/p/'q/f.ts".data "/p/z/f.ts".data)
        "/p/z/f.ts".data "/p/z/f.ts".data ≠
      processImportPaths "/".data "from './c'".data
        "/p/'q/f.ts".data "/p/z/f.ts".data := by
  decide

/-- Witness for `processImportPaths_idem` at a concrete quote-free run. -/
theorem processImportPaths_idem_witness :
    isAbs "/w".data = true ∧ nq "/w".data ∧ nq "/w/src/.tnf/client.tsx".data
      ∧ nq "/w/src/client.tsx".data ∧
    processImportPaths "/w".data
        (processImportPaths "/w".data "from './foo/bar'".data
          "/w/src/.tnf/client.tsx".data "/w/src/client.tsx".data)
        "/w/src/client.tsx".data "/w/src/client.tsx".data =
      processImportPaths "/w".data "from './foo/bar'".data
        "/w/src/.tnf/client.tsx".data "/w/src/client.tsx".data :=
  ⟨by decide, by unfold nq; decide, by unfold nq; decide,
    by unfold nq; decide,
    processImportPaths_idem "/w".data "from './foo/bar'".data
      "/w/src/.tnf/client.tsx".data "/w/src/client.tsx".data
      (by decide) (by unfold nq; decide) (by unfold nq; decide)
      (by unfold nq; decide)⟩

end Tnf
